import Mathlib

/- Verification of the custom memory allocator subsystem:
   the arena (memory pool) allocator, the stack allocator with rollback
   markers, and the fixed-size free-list block allocator from
   src/sandbox/05-advanced-programming/01-memory-management/04-custom-memory-management/main.c,
   and the tracking memory manager from
   src/sandbox/practices/007-memory-manager/main.c.

   Machine integers: size_t is 64 bits on the target (LP64); size_t
   arithmetic wraps modulo 2 ^ 64, which is made explicit below.  Pointers
   are modelled as natural numbers (addresses); the system allocator is
   modelled by a fresh-address counter together with a scripted list of
   success or failure outcomes, and every call to it is logged. -/

/- ===================== size_t arithmetic ===================== -/

def SIZE_T_MOD : Nat := 2 ^ 64

/- Alignment computation shared by pool_alloc and stack_alloc:
   size_t aligned_size = (size + 7) & ~7.
   The addition wraps modulo 2 ^ 64; masking with ~7 clears the low three
   bits of the result, i.e. subtracts its remainder modulo 8. -/
def size_t_align8 (size : Nat) : Nat :=
  ((size + 7) % SIZE_T_MOD) - ((size + 7) % SIZE_T_MOD) % 8

/- ===================== Memory pool (arena) allocator ===================== -/

def POOL_SIZE : Nat := 1024

/- MemoryPool owns a fixed 1024-byte buffer and a watermark `used`.  The
   buffer contents are irrelevant to the verified properties, so only the
   watermark is carried; a returned pointer &pool->buffer[used] is modelled
   as the byte offset `used`. -/
structure MemoryPool where
  used : Nat
deriving DecidableEq

def pool_init : MemoryPool := ⟨0⟩

/- void *pool_alloc(MemoryPool *pool, size_t size):
   returns NULL when used + aligned_size > POOL_SIZE (in size_t
   arithmetic), otherwise returns &buffer[used] and advances `used` by
   aligned_size. -/
def pool_alloc (pool : MemoryPool) (size : Nat) : Option (Nat × MemoryPool) :=
  let aligned_size := size_t_align8 size
  if POOL_SIZE < (pool.used + aligned_size) % SIZE_T_MOD then none
  else some (pool.used, ⟨(pool.used + aligned_size) % SIZE_T_MOD⟩)

def pool_reset (_pool : MemoryPool) : MemoryPool := ⟨0⟩

/- Run pool_alloc over a list of request sizes, collecting each returned
   offset (none for a failed call); a failed call leaves the pool as it
   was, exactly as the C function returns NULL without writing anything. -/
def pool_allocSeq (pool : MemoryPool) : List Nat → List (Option Nat) × MemoryPool
  | [] => ([], pool)
  | size :: rest =>
    match pool_alloc pool size with
    | none => let r := pool_allocSeq pool rest; (none :: r.1, r.2)
    | some q => let r := pool_allocSeq q.2 rest; (some q.1 :: r.1, r.2)

/- Sum of the aligned sizes of the first k requests: the offset at which
   the k-th allocation of a run from a fresh pool lands. -/
def alignedTake (sizes : List Nat) (k : Nat) : Nat :=
  ((sizes.take k).map size_t_align8).sum

/- ===================== Stack allocator ===================== -/

/- StackAllocator owns a heap buffer of length `capacity` and a watermark
   `used`; as with MemoryPool the buffer bytes are irrelevant here. -/
structure StackAllocator where
  capacity : Nat
  used : Nat
deriving DecidableEq

/- void *stack_alloc(StackAllocator *stack, size_t size): identical bump
   logic to pool_alloc over the heap-backed buffer. -/
def stack_alloc (stack : StackAllocator) (size : Nat) : Option (Nat × StackAllocator) :=
  let aligned_size := size_t_align8 size
  if stack.capacity < (stack.used + aligned_size) % SIZE_T_MOD then none
  else some (stack.used, ⟨stack.capacity, (stack.used + aligned_size) % SIZE_T_MOD⟩)

/- size_t stack_get_marker(StackAllocator *stack) -/
def stack_get_marker (stack : StackAllocator) : Nat := stack.used

/- void stack_free_to_marker(StackAllocator *stack, size_t marker) -/
def stack_free_to_marker (stack : StackAllocator) (marker : Nat) : StackAllocator :=
  if marker ≤ stack.used then ⟨stack.capacity, marker⟩ else stack

/- Run stack_alloc over a list of request sizes, keeping only the final
   allocator state (a failed call leaves the state unchanged). -/
def stack_allocSeq (stack : StackAllocator) : List Nat → StackAllocator
  | [] => stack
  | size :: rest =>
    match stack_alloc stack size with
    | none => stack_allocSeq stack rest
    | some r => stack_allocSeq r.2 rest

/- ===================== Block (free-list) allocator ===================== -/

/- sizeof(BlockNode): one next pointer, 8 bytes on LP64. -/
def BLOCK_NODE_SIZE : Nat := 8

/- BlockAllocator state.  The intrusive singly linked free list (each free
   block stores the address of the next free block in its first bytes) is
   modelled as the list of free block addresses in link order, head first:
   a push writes node->next = free_list; free_list = node, which is cons,
   and a pop reads the head.  `chunks` records each chunk base address in
   the order the chunks were allocated.  `heapNext` models the system
   allocator: malloc is modelled as always succeeding and returning the
   next fresh address (the claims about this allocator concern its own
   growth bookkeeping, not system-memory exhaustion). -/
structure BlockAllocator where
  block_size : Nat
  blocks_per_chunk : Nat
  free_list : List Nat
  chunks : List Nat
  chunk_count : Nat
  max_chunks : Nat
  heapNext : Nat
deriving DecidableEq

/- int block_allocator_init(...): rounds block_size up to at least
   sizeof(BlockNode); the allocation of the chunk-pointer table is modelled
   as succeeding, so the initialized allocator is returned directly. -/
def block_allocator_init (block_size blocks_per_chunk max_chunks : Nat) : BlockAllocator :=
  { block_size := if block_size < BLOCK_NODE_SIZE then BLOCK_NODE_SIZE else block_size
  , blocks_per_chunk := blocks_per_chunk
  , free_list := []
  , chunks := []
  , chunk_count := 0
  , max_chunks := max_chunks
  , heapNext := 0 }

/- int block_allocator_add_chunk(BlockAllocator *alloc): fails when
   chunk_count >= max_chunks; otherwise mallocs one chunk of
   block_size * blocks_per_chunk bytes (modelled: base address heapNext),
   appends it to the chunks array, and pushes every block of the chunk
   onto the free list in increasing address order:
   for i in [0, blocks_per_chunk): push(chunk + i * block_size). -/
def block_allocator_add_chunk (a : BlockAllocator) : Option BlockAllocator :=
  if a.max_chunks ≤ a.chunk_count then none
  else
    let chunk := a.heapNext
    let fl := (List.range a.blocks_per_chunk).foldl
      (fun l i => (chunk + i * a.block_size) :: l) a.free_list
    some { a with
           chunks := a.chunks ++ [chunk]
         , chunk_count := a.chunk_count + 1
         , free_list := fl
         , heapNext := chunk + a.block_size * a.blocks_per_chunk }

/- void *block_alloc(BlockAllocator *alloc): grows by one chunk when the
   free list is empty (returning NULL when growth fails), then pops the
   free-list head.  The final empty case mirrors the C code dereferencing
   a still-NULL free list head; it is reachable only when
   blocks_per_chunk = 0 (where the C program has undefined behaviour) and
   is modelled as a failed allocation. -/
def block_alloc (a : BlockAllocator) : Option (Nat × BlockAllocator) :=
  match a.free_list with
  | node :: rest => some (node, { a with free_list := rest })
  | [] =>
    match block_allocator_add_chunk a with
    | none => none
    | some a1 =>
      match a1.free_list with
      | node :: rest => some (node, { a1 with free_list := rest })
      | [] => none

/- void block_free(BlockAllocator *alloc, void *ptr): if (!ptr) return;
   otherwise push the block onto the free-list head. -/
def block_free (a : BlockAllocator) (ptr : Option Nat) : BlockAllocator :=
  match ptr with
  | none => a
  | some p => { a with free_list := p :: a.free_list }

/- n successive block_alloc calls, collecting the results (none for a
   failed call, which leaves the allocator unchanged). -/
def allocN : Nat → BlockAllocator → List (Option Nat) × BlockAllocator
  | 0, a => ([], a)
  | n + 1, a =>
    match block_alloc a with
    | none => let r := allocN n a; (none :: r.1, r.2)
    | some pa => let r := allocN n pa.2; (some pa.1 :: r.1, r.2)

/- block_free over a list of pointers. -/
def freeAll (a : BlockAllocator) (ps : List Nat) : BlockAllocator :=
  ps.foldl (fun b p => block_free b (some p)) a

/- ===================== Tracking memory manager ===================== -/

def TINY_BLOCK_SIZE : Nat := 16
def SMALL_BLOCK_SIZE : Nat := 64
def MEDIUM_BLOCK_SIZE : Nat := 256
def MAX_BLOCKS_PER_POOL : Nat := 100
def MEMORY_MAGIC : Nat := 0xDEADBEEF

/- sizeof(MemoryHeader) on LP64: size_t(8) + uint32_t(4) + padding(4) +
   const char*(8) + int(4) + padding(4) + two pointers(16) = 48 bytes. -/
def headerSize : Nat := 48

/- The tracking header written in front of every allocation.  The prev and
   next links of the C struct are represented by the position of the
   header address inside MMState.allocations. -/
structure MemoryHeader where
  size : Nat
  magic : Nat
  file : String
  line : Nat
deriving DecidableEq

inductive BlockCategory where
  | tiny
  | small
  | medium
  | large
deriving DecidableEq

/- BlockCategory get_block_category(size_t size) -/
def get_block_category (size : Nat) : BlockCategory :=
  if size ≤ TINY_BLOCK_SIZE then .tiny
  else if size ≤ SMALL_BLOCK_SIZE then .small
  else if size ≤ MEDIUM_BLOCK_SIZE then .medium
  else .large

/- A fixed-size block pool.  The C struct keeps two parallel arrays
   blocks[100] and used[100] sharing one count; they are modelled as a
   single list of (address, used flag) pairs whose length is the count. -/
structure BlockPool where
  blocks : List (Nat × Bool)
  block_size : Nat
deriving DecidableEq

def init_block_pool (block_size : Nat) : BlockPool :=
  { blocks := [], block_size := block_size }

/- Tracking memory manager state (the global g_memory_manager), together
   with the model of its environment:
   headers    - the MemoryHeader contents stored at each header address;
   heapNext   - next fresh address handed out by the modelled malloc;
   mallocPlan - scripted outcomes for successive malloc calls (an
                exhausted script means success);
   sysLog     - every malloc call as (requested bytes, success flag);
   sysFreed   - every address passed to the system free. -/
structure MMState where
  tiny_pool : BlockPool
  small_pool : BlockPool
  medium_pool : BlockPool
  allocations : List Nat
  allocation_count : Nat
  total_allocated : Nat
  peak_allocated : Nat
  malloc_calls : Nat
  free_calls : Nat
  pool_hits : Nat
  headers : List (Nat × MemoryHeader)
  heapNext : Nat
  mallocPlan : List Bool
  sysLog : List (Nat × Bool)
  sysFreed : List Nat
deriving DecidableEq

/- void memory_manager_init(): pools get their block sizes, tracking and
   statistics start at zero.  The malloc script is a parameter of the
   model of the environment, not of the C function. -/
def memory_manager_init (plan : List Bool) : MMState :=
  { tiny_pool := init_block_pool TINY_BLOCK_SIZE
  , small_pool := init_block_pool SMALL_BLOCK_SIZE
  , medium_pool := init_block_pool MEDIUM_BLOCK_SIZE
  , allocations := []
  , allocation_count := 0
  , total_allocated := 0
  , peak_allocated := 0
  , malloc_calls := 0
  , free_calls := 0
  , pool_hits := 0
  , headers := []
  , heapNext := 0
  , mallocPlan := plan
  , sysLog := []
  , sysFreed := [] }

/- The modelled system malloc: consumes the next scripted outcome (success
   when the script is exhausted), returns the next fresh address on
   success, and logs the request. -/
def sysMalloc (st : MMState) (n : Nat) : Option Nat × MMState :=
  match st.mallocPlan with
  | [] =>
    (some st.heapNext,
     { st with heapNext := st.heapNext + n, sysLog := st.sysLog ++ [(n, true)] })
  | ok :: rest =>
    if ok then
      (some st.heapNext,
       { st with heapNext := st.heapNext + n, mallocPlan := rest
               , sysLog := st.sysLog ++ [(n, true)] })
    else
      (none, { st with mallocPlan := rest, sysLog := st.sysLog ++ [(n, false)] })

/- Store a header at an address (overwriting any previous contents). -/
def storeHeader : List (Nat × MemoryHeader) → Nat → MemoryHeader → List (Nat × MemoryHeader)
  | [], a, h => [(a, h)]
  | (b, g) :: t, a, h => if b = a then (a, h) :: t else (b, g) :: storeHeader t a h

/- Read the header stored at an address. -/
def loadHeader : List (Nat × MemoryHeader) → Nat → Option MemoryHeader
  | [], _ => none
  | (b, g) :: t, a => if b = a then some g else loadHeader t a

/- bool add_block_to_pool(BlockPool *pool): fails when the pool is full,
   otherwise mallocs one block of pool->block_size bytes and appends it,
   initially unused. -/
def add_block_to_pool (st : MMState) (pool : BlockPool) : Bool × BlockPool × MMState :=
  if MAX_BLOCKS_PER_POOL ≤ pool.blocks.length then (false, pool, st)
  else
    match sysMalloc st pool.block_size with
    | (none, st1) => (false, pool, st1)
    | (some b, st1) =>
      (true, { pool with blocks := pool.blocks ++ [(b, false)] }, st1)

/- The scan loop of allocate_from_pool: find the first entry whose used
   flag is clear, mark it used and return its address. -/
def poolTakeFirst : List (Nat × Bool) → Option Nat × List (Nat × Bool)
  | [] => (none, [])
  | (b, u) :: t =>
    if u then
      let r := poolTakeFirst t
      (r.1, (b, u) :: r.2)
    else (some b, (b, true) :: t)

/- void *allocate_from_pool(BlockPool *pool): reuse the first unused block
   (counting a pool hit), otherwise grow the pool by one block and hand
   that block out; NULL when growth fails. -/
def allocate_from_pool (st : MMState) (pool : BlockPool) : Option Nat × BlockPool × MMState :=
  match poolTakeFirst pool.blocks with
  | (some b, entries) =>
    (some b, { pool with blocks := entries }, { st with pool_hits := st.pool_hits + 1 })
  | (none, _) =>
    match add_block_to_pool st pool with
    | (false, pool1, st1) => (none, pool1, st1)
    | (true, pool1, st1) =>
      match pool1.blocks.getLast? with
      | none => (none, pool1, st1)
      | some e =>
        (some e.1, { pool1 with blocks := pool1.blocks.dropLast ++ [(e.1, true)] }, st1)

/- BlockPool *get_pool_for_category(BlockCategory category) -/
def get_pool_for_category (st : MMState) : BlockCategory → Option BlockPool
  | .tiny => some st.tiny_pool
  | .small => some st.small_pool
  | .medium => some st.medium_pool
  | .large => none

/- Write a category pool back into the manager (the C code mutates the
   pool through the pointer returned by get_pool_for_category). -/
def set_pool_for_category (st : MMState) : BlockCategory → BlockPool → MMState
  | .tiny, p => { st with tiny_pool := p }
  | .small, p => { st with small_pool := p }
  | .medium, p => { st with medium_pool := p }
  | .large, _ => st

/- The block_size field of the pool serving a category (0 for large). -/
def category_pool_block_size (st : MMState) : BlockCategory → Nat
  | .tiny => st.tiny_pool.block_size
  | .small => st.small_pool.block_size
  | .medium => st.medium_pool.block_size
  | .large => 0

/- void track_allocation(void *ptr, size_t size, const char *file, int line):
   writes the header at ptr, head-inserts it into the outstanding list and
   updates the statistics. -/
def track_allocation (st : MMState) (p : Nat) (size : Nat) (file : String) (line : Nat) : MMState :=
  let total := st.total_allocated + size
  { st with
    headers := storeHeader st.headers p ⟨size, MEMORY_MAGIC, file, line⟩
  , allocations := p :: st.allocations
  , allocation_count := st.allocation_count + 1
  , total_allocated := total
  , peak_allocated := if st.peak_allocated < total then total else st.peak_allocated }

/- void untrack_allocation(MemoryHeader *header): re-validates the magic
   number (printing an error and returning on mismatch), unlinks the
   record and updates the statistics.  A load from an address whose
   contents were never modelled is returned unchanged; the verified paths
   never reach that case. -/
def untrack_allocation (st : MMState) (p : Nat) : MMState :=
  match loadHeader st.headers p with
  | none => st
  | some h =>
    if h.magic ≠ MEMORY_MAGIC then st
    else
      { st with
        allocations := st.allocations.erase p
      , allocation_count := st.allocation_count - 1
      , total_allocated := st.total_allocated - h.size }

/- void *memory_alloc(size_t size, const char *file, int line) -/
def memory_alloc (st0 : MMState) (size : Nat) (file : String) (line : Nat) : Option Nat × MMState :=
  let st := { st0 with malloc_calls := st0.malloc_calls + 1 }
  let total_size := size + headerSize
  let category := get_block_category total_size
  let pooled : Option Nat × MMState :=
    match get_pool_for_category st category with
    | none => (none, st)
    | some pool =>
      let r := allocate_from_pool st pool
      (r.1, set_pool_for_category r.2.2 category r.2.1)
  match pooled with
  | (some p, st1) => (some (p + headerSize), track_allocation st1 p size file line)
  | (none, st1) =>
    match sysMalloc st1 total_size with
    | (none, st2) => (none, st2)
    | (some p, st2) => (some (p + headerSize), track_allocation st2 p size file line)

/- The scan of return_to_pool: mark the entry holding this address unused;
   none when the address is not a block of this pool. -/
def markUnused : List (Nat × Bool) → Nat → Option (List (Nat × Bool))
  | [], _ => none
  | (b, u) :: t, p =>
    if b = p then some ((b, false) :: t)
    else (markUnused t p).map (fun t1 => (b, u) :: t1)

/- void return_to_pool(void *ptr, BlockCategory category): large blocks go
   to the system free; otherwise the block is marked unused in its pool,
   and an address not found in the pool is handed to the system free. -/
def return_to_pool (st : MMState) (p : Nat) : BlockCategory → MMState
  | .large => { st with sysFreed := st.sysFreed ++ [p] }
  | c =>
    match get_pool_for_category st c with
    | none => { st with sysFreed := st.sysFreed ++ [p] }
    | some pool =>
      match markUnused pool.blocks p with
      | some entries => set_pool_for_category st c { pool with blocks := entries }
      | none => { st with sysFreed := st.sysFreed ++ [p] }

/- The observable outcome of one memory_free call. -/
inductive FreeResult where
  | nullPtr
  | corruption (file : String) (line : Nat) (origFile : String) (origLine : Nat)
  | freed
  | unmodelled
deriving DecidableEq

/- void memory_free(void *ptr, const char *file, int line): NULL is
   ignored; the header in front of ptr is validated, a magic mismatch is
   reported (with the original allocation site from the header) and the
   free is aborted; otherwise the block category is computed from the
   stored size, the record is untracked, the magic is cleared to catch
   double frees, and the block is returned to its pool or freed.
   The unmodelled case covers reads of memory this model never wrote; the
   verified paths never reach it. -/
def memory_free (st0 : MMState) (ptr : Option Nat) (file : String) (line : Nat) :
    MMState × FreeResult :=
  match ptr with
  | none => (st0, .nullPtr)
  | some q =>
    let st := { st0 with free_calls := st0.free_calls + 1 }
    let p := q - headerSize
    match loadHeader st.headers p with
    | none => (st, .unmodelled)
    | some h =>
      if h.magic ≠ MEMORY_MAGIC then
        (st, .corruption file line h.file h.line)
      else
        let category := get_block_category (h.size + headerSize)
        let st1 := untrack_allocation st p
        let st2 := { st1 with headers := storeHeader st1.headers p { h with magic := 0 } }
        (return_to_pool st2 p category, .freed)

/- The leak lines printed by memory_print_report: one record per walk step
   of the outstanding list (nothing is printed when no allocation is
   outstanding).  Each record is the size and allocation site read from
   the header. -/
def memory_print_report (st : MMState) : List (Option (Nat × String × Nat)) :=
  if st.allocation_count = 0 then []
  else st.allocations.map
    (fun p => (loadHeader st.headers p).map (fun h => (h.size, h.file, h.line)))

/- memory_alloc over a list of (size, file, line) requests, collecting the
   returned pointers. -/
def runAllocs : MMState → List (Nat × String × Nat) → List (Option Nat) × MMState
  | st, [] => ([], st)
  | st, r :: rest =>
    let a := memory_alloc st r.1 r.2.1 r.2.2
    let rr := runAllocs a.2 rest
    (a.1 :: rr.1, rr.2)

/- memory_free over a list of pointers (all from one call site). -/
def runFrees (st : MMState) (ps : List Nat) (file : String) (line : Nat) : MMState :=
  ps.foldl (fun s p => (memory_free s (some p) file line).1) st

/- ===================== Arithmetic facts about the alignment ===================== -/

theorem size_t_mod_pos : 0 < SIZE_T_MOD := by decide

theorem align8_eq_of_no_wrap (s : Nat) (h : s + 7 < SIZE_T_MOD) :
    size_t_align8 s = (s + 7) - (s + 7) % 8 := by
  unfold size_t_align8
  rw [Nat.mod_eq_of_lt h]

theorem align8_ge (s : Nat) (h : s + 7 < SIZE_T_MOD) : s ≤ size_t_align8 s := by
  rw [align8_eq_of_no_wrap s h]
  omega

theorem align8_mod8 (s : Nat) : size_t_align8 s % 8 = 0 := by
  unfold size_t_align8
  omega

theorem align8_lt (s : Nat) (h : s + 7 < SIZE_T_MOD) : size_t_align8 s < s + 8 := by
  rw [align8_eq_of_no_wrap s h]
  omega

/- ===================== Arena (pool) allocator lemmas ===================== -/

theorem pool_alloc_eq_some (u s : Nat) (hW : u + size_t_align8 s < SIZE_T_MOD)
    (hle : u + size_t_align8 s ≤ POOL_SIZE) :
    pool_alloc ⟨u⟩ s = some (u, ⟨u + size_t_align8 s⟩) := by
  unfold pool_alloc
  simp only []
  rw [Nat.mod_eq_of_lt hW, if_neg (by omega)]

theorem pool_alloc_eq_none (u s : Nat) (hW : u + size_t_align8 s < SIZE_T_MOD)
    (hgt : POOL_SIZE < u + size_t_align8 s) :
    pool_alloc ⟨u⟩ s = none := by
  unfold pool_alloc
  simp only []
  rw [Nat.mod_eq_of_lt hW, if_pos (by omega)]

theorem alignedTake_cons (s : Nat) (rest : List Nat) (k : Nat) :
    alignedTake (s :: rest) (k + 1) = size_t_align8 s + alignedTake rest k := by
  simp [alignedTake]

theorem pool_allocSeq_eq (sizes : List Nat) (u : Nat)
    (hfit : u + (sizes.map size_t_align8).sum ≤ POOL_SIZE) :
    pool_allocSeq ⟨u⟩ sizes =
      ((List.range sizes.length).map (fun k => some (u + alignedTake sizes k)),
       ⟨u + alignedTake sizes sizes.length⟩) := by
  induction sizes generalizing u with
  | nil => simp [pool_allocSeq, alignedTake]
  | cons s rest ih =>
    have hsum : (List.map size_t_align8 (s :: rest)).sum
        = size_t_align8 s + (List.map size_t_align8 rest).sum := by simp
    have hW : u + size_t_align8 s < SIZE_T_MOD := by
      have : u + size_t_align8 s ≤ POOL_SIZE := by omega
      have hP : POOL_SIZE < SIZE_T_MOD := by decide
      omega
    have hstep : pool_alloc ⟨u⟩ s = some (u, ⟨u + size_t_align8 s⟩) :=
      pool_alloc_eq_some u s hW (by omega)
    have hrest : (u + size_t_align8 s) + (List.map size_t_align8 rest).sum ≤ POOL_SIZE := by
      omega
    rw [pool_allocSeq, hstep]
    simp only [ih (u + size_t_align8 s) hrest]
    simp only [Prod.mk.injEq]
    constructor
    · rw [List.length_cons, List.range_succ_eq_map]
      simp [Function.comp, alignedTake_cons, alignedTake, Nat.add_assoc]
    · simp [alignedTake_cons, Nat.add_assoc]

theorem sum_mod8_eq_zero (l : List Nat) (h : ∀ x ∈ l, x % 8 = 0) : l.sum % 8 = 0 := by
  induction l with
  | nil => simp
  | cons a t ih =>
    have ha := h a (by simp)
    have ht := ih (fun x hx => h x (by simp [hx]))
    simp only [List.sum_cons]
    omega

theorem alignedTake_mod8 (sizes : List Nat) (k : Nat) : alignedTake sizes k % 8 = 0 := by
  apply sum_mod8_eq_zero
  intro x hx
  rcases List.mem_map.mp hx with ⟨s, _, rfl⟩
  exact align8_mod8 s

theorem alignedTake_succ_of_lt (sizes : List Nat) (k : Nat) (h : k < sizes.length) :
    alignedTake sizes (k + 1) = alignedTake sizes k + size_t_align8 (sizes.get ⟨k, h⟩) := by
  unfold alignedTake
  rw [List.map_take, List.map_take, List.take_succ]
  have hk : (sizes.map size_t_align8)[k]? = some (size_t_align8 (sizes.get ⟨k, h⟩)) := by
    rw [List.getElem?_map]
    simp [List.getElem?_eq_getElem h]
  rw [hk]
  simp

theorem alignedTake_le_succ (sizes : List Nat) (k : Nat) :
    alignedTake sizes k ≤ alignedTake sizes (k + 1) := by
  by_cases h : k < sizes.length
  · rw [alignedTake_succ_of_lt sizes k h]; omega
  · unfold alignedTake
    rw [List.take_of_length_le (by omega), List.take_of_length_le (by omega)]

theorem alignedTake_mono (sizes : List Nat) : Monotone (alignedTake sizes) :=
  monotone_nat_of_le_succ (alignedTake_le_succ sizes)

/- ===================== Stack allocator lemmas ===================== -/

theorem stack_allocSeq_eq (stack : StackAllocator) (sizes : List Nat)
    (hcap : stack.capacity < SIZE_T_MOD)
    (hfit : stack.used + (sizes.map size_t_align8).sum ≤ stack.capacity) :
    stack_allocSeq stack sizes =
      ⟨stack.capacity, stack.used + (sizes.map size_t_align8).sum⟩ := by
  induction sizes generalizing stack with
  | nil => cases stack; simp [stack_allocSeq]
  | cons s rest ih =>
    have hsum : (List.map size_t_align8 (s :: rest)).sum
        = size_t_align8 s + (List.map size_t_align8 rest).sum := by simp
    have hW : stack.used + size_t_align8 s < SIZE_T_MOD := by omega
    have hstep : stack_alloc stack s
        = some (stack.used, ⟨stack.capacity, stack.used + size_t_align8 s⟩) := by
      unfold stack_alloc
      simp only []
      rw [Nat.mod_eq_of_lt hW, if_neg (by omega)]
    rw [stack_allocSeq, hstep]
    dsimp only
    rw [ih ⟨stack.capacity, stack.used + size_t_align8 s⟩ hcap (by simp; omega)]
    simp [Nat.add_assoc]

/-- Claim C5: taking a marker, performing any sequence of stack_alloc calls
that fits within capacity (the aligned request sizes sum to at most the
free space), and rolling back to the marker restores `used` to exactly the
value it had when the marker was taken (the capacity is also untouched). -/
theorem stack_marker_roundtrip (stack : StackAllocator) (sizes : List Nat)
    (hcap : stack.capacity < SIZE_T_MOD)
    (hfit : stack.used + (sizes.map size_t_align8).sum ≤ stack.capacity) :
    stack_free_to_marker (stack_allocSeq stack sizes) (stack_get_marker stack) =
      ⟨stack.capacity, stack.used⟩ := by
  rw [stack_allocSeq_eq stack sizes hcap hfit]
  unfold stack_free_to_marker stack_get_marker
  simp

/-- Witness for stack_marker_roundtrip at a concrete stack and request
sequence. -/
theorem stack_marker_roundtrip_witness :
    stack_free_to_marker (stack_allocSeq ⟨1024, 16⟩ [4, 50]) (stack_get_marker ⟨1024, 16⟩) =
      ⟨1024, 16⟩ :=
  stack_marker_roundtrip ⟨1024, 16⟩ [4, 50] (by decide) (by decide)

/- ===================== Claim C4: arena alloc contract ===================== -/

/-- Claim C4 counterexample: the claim fails as stated for requested sizes
whose size_t alignment computation wraps.  At used = 0 and
size = 2 ^ 64 - 1 (SIZE_MAX), pool_alloc succeeds and advances `used` by
0 bytes, although the next 8-byte-aligned multiple of the size would have
to be at least the size, which exceeds the remaining capacity, so the
claimed contract requires this call to fail. -/
theorem pool_alloc_overflow_cex :
    pool_alloc pool_init (2 ^ 64 - 1) = some (0, ⟨0⟩) ∧
    size_t_align8 (2 ^ 64 - 1) = 0 ∧ 0 < 2 ^ 64 - 1 := by
  refine ⟨by decide, by decide, by norm_num⟩

/-- Claim C4 (amended): provided the size_t computations do not wrap
(size + 7 < 2 ^ 64 and used + aligned_size < 2 ^ 64), pool_alloc returns
the offset `used` and advances `used` by the least 8-byte multiple that is
at least `size`, failing (with the pool unchanged) exactly when
used + aligned_size > POOL_SIZE; and every run from a fresh pool whose
aligned sizes sum to at most POOL_SIZE succeeds on every call, returning
8-byte-aligned, pairwise non-overlapping regions. -/
theorem pool_alloc_contract :
    (∀ used size : Nat, size + 7 < SIZE_T_MOD → used + size_t_align8 size < SIZE_T_MOD →
      (size ≤ size_t_align8 size ∧ size_t_align8 size % 8 = 0 ∧
        size_t_align8 size < size + 8) ∧
      (used + size_t_align8 size ≤ POOL_SIZE →
        pool_alloc ⟨used⟩ size = some (used, ⟨used + size_t_align8 size⟩)) ∧
      (POOL_SIZE < used + size_t_align8 size → pool_alloc ⟨used⟩ size = none)) ∧
    (∀ sizes : List Nat, (∀ s ∈ sizes, s + 7 < SIZE_T_MOD) →
      (sizes.map size_t_align8).sum ≤ POOL_SIZE →
      (pool_allocSeq pool_init sizes).1 =
        (List.range sizes.length).map (fun k => some (alignedTake sizes k)) ∧
      (pool_allocSeq pool_init sizes).2.used = alignedTake sizes sizes.length ∧
      (∀ k, alignedTake sizes k % 8 = 0) ∧
      (∀ i j : Fin sizes.length, i < j →
        alignedTake sizes i.1 + sizes.get i ≤ alignedTake sizes j.1)) := by
  constructor
  · intro used size h1 h2
    exact ⟨⟨align8_ge size h1, align8_mod8 size, align8_lt size h1⟩,
      fun hle => pool_alloc_eq_some used size h2 hle,
      fun hgt => pool_alloc_eq_none used size h2 hgt⟩
  · intro sizes hs hfit
    have hseq := pool_allocSeq_eq sizes 0 (by simpa using hfit)
    have h0 : pool_init = (⟨0⟩ : MemoryPool) := rfl
    refine ⟨?_, ?_, alignedTake_mod8 sizes, ?_⟩
    · rw [h0, hseq]; simp
    · rw [h0, hseq]; simp
    · intro i j hij
      have hstep := alignedTake_succ_of_lt sizes i.1 i.2
      have hge : sizes.get ⟨i.1, i.2⟩ ≤ size_t_align8 (sizes.get ⟨i.1, i.2⟩) :=
        align8_ge _ (hs _ (sizes.get_mem i.1 i.2))
      have hmono : alignedTake sizes (i.1 + 1) ≤ alignedTake sizes j.1 :=
        alignedTake_mono sizes (by omega)
      have hi : sizes.get i = sizes.get ⟨i.1, i.2⟩ := rfl
      rw [hi]
      omega

/-- Witness for pool_alloc_contract: a concrete in-bounds allocation. -/
theorem pool_alloc_contract_witness :
    pool_alloc ⟨0⟩ 5 = some (0, ⟨0 + size_t_align8 5⟩) :=
  (pool_alloc_contract.1 0 5 (by decide) (by decide)).2.1 (by decide)

/- ===================== Block allocator lemmas ===================== -/

theorem foldl_push_range (c bs : Nat) (fl : List Nat) (n : Nat) :
    (List.range n).foldl (fun l i => (c + i * bs) :: l) fl
      = ((List.range n).map (fun i => c + i * bs)).reverse ++ fl := by
  induction n with
  | zero => simp
  | succ k ih =>
    rw [List.range_succ, List.foldl_append, List.map_append, List.reverse_append]
    simp [ih]

theorem add_chunk_eq_some (a : BlockAllocator) (h : a.chunk_count < a.max_chunks) :
    block_allocator_add_chunk a = some
      { a with chunks := a.chunks ++ [a.heapNext]
             , chunk_count := a.chunk_count + 1
             , free_list := ((List.range a.blocks_per_chunk).map
                 (fun i => a.heapNext + i * a.block_size)).reverse ++ a.free_list
             , heapNext := a.heapNext + a.block_size * a.blocks_per_chunk } := by
  unfold block_allocator_add_chunk
  rw [if_neg (by omega)]
  dsimp only
  rw [foldl_push_range]

theorem add_chunk_eq_none (a : BlockAllocator) (h : a.max_chunks ≤ a.chunk_count) :
    block_allocator_add_chunk a = none := by
  unfold block_allocator_add_chunk
  rw [if_pos h]

/- Block addresses of a freshly allocated chunk based at c. -/
theorem chunk_block_mem_bounds (c bs bpc x : Nat) (hbs : 0 < bs)
    (hx : x ∈ (List.range bpc).map (fun i => c + i * bs)) :
    c ≤ x ∧ x < c + bs * bpc := by
  rcases List.mem_map.mp hx with ⟨i, hi, rfl⟩
  have hi2 := List.mem_range.mp hi
  have h1 : i * bs < bpc * bs := by
    exact Nat.mul_lt_mul_of_lt_of_le hi2 (le_refl bs) hbs
  have h2 : bs * bpc = bpc * bs := Nat.mul_comm bs bpc
  omega

/- The counting abstraction used for the growth-bound claim: `outstanding`
   is the number of blocks handed out and not yet freed, and every block of
   every chunk is either free or outstanding. -/
def BCount (a : BlockAllocator) (outstanding : Nat) : Prop :=
  a.free_list.length + outstanding = a.blocks_per_chunk * a.chunk_count ∧
  a.chunk_count ≤ a.max_chunks

instance (a : BlockAllocator) (n : Nat) : Decidable (BCount a n) := by
  unfold BCount
  infer_instance

theorem block_alloc_grow (a : BlockAllocator) (hfl : a.free_list = [])
    (hcc : a.chunk_count < a.max_chunks) (p : Nat) (t : List Nat)
    (hrev : ((List.range a.blocks_per_chunk).map
      (fun i => a.heapNext + i * a.block_size)).reverse = p :: t) :
    block_alloc a = some (p,
      { a with chunks := a.chunks ++ [a.heapNext]
             , chunk_count := a.chunk_count + 1
             , free_list := t
             , heapNext := a.heapNext + a.block_size * a.blocks_per_chunk }) := by
  have hadd := add_chunk_eq_some a hcc
  rw [hfl] at hadd
  unfold block_alloc
  rw [hfl, hadd]
  simp [hrev]

theorem block_alloc_step_some (a : BlockAllocator) (n : Nat)
    (hb : 0 < a.blocks_per_chunk) (hc : BCount a n)
    (hlt : n < a.blocks_per_chunk * a.max_chunks) :
    ∃ p a1, block_alloc a = some (p, a1) ∧ BCount a1 (n + 1) ∧
      a1.blocks_per_chunk = a.blocks_per_chunk ∧ a1.max_chunks = a.max_chunks ∧
      a1.block_size = a.block_size ∧
      (a.free_list ≠ [] → a1.chunk_count = a.chunk_count ∧
        a.free_list = p :: a1.free_list) := by
  obtain ⟨hcnt, hle⟩ := hc
  cases hfl : a.free_list with
  | cons q rest =>
    refine ⟨q, { a with free_list := rest }, ?_, ?_, rfl, rfl, rfl, fun _ => ⟨rfl, by simp⟩⟩
    · unfold block_alloc
      rw [hfl]
    · rw [hfl] at hcnt
      simp at hcnt
      exact ⟨by simp; omega, hle⟩
  | nil =>
    rw [hfl] at hcnt
    simp at hcnt
    have hcc : a.chunk_count < a.max_chunks := by
      by_contra hge
      push_neg at hge
      have hmul : a.blocks_per_chunk * a.max_chunks ≤ a.blocks_per_chunk * a.chunk_count :=
        Nat.mul_le_mul_left _ hge
      omega
    have hlen : (((List.range a.blocks_per_chunk).map
        (fun i => a.heapNext + i * a.block_size)).reverse).length = a.blocks_per_chunk := by
      simp
    have hne : (((List.range a.blocks_per_chunk).map
        (fun i => a.heapNext + i * a.block_size)).reverse) ≠ [] := by
      intro h0
      rw [h0] at hlen
      simp at hlen
      omega
    obtain ⟨p, t, hpt⟩ := List.exists_cons_of_ne_nil hne
    refine ⟨p, _, block_alloc_grow a hfl hcc p t hpt, ?_, rfl, rfl, rfl, by simp [hfl]⟩
    have htlen : t.length + 1 = a.blocks_per_chunk := by
      rw [hpt] at hlen
      simpa using hlen
    constructor
    · simp
      rw [Nat.mul_add]
      omega
    · simp
      omega

theorem block_alloc_exhausted (a : BlockAllocator) (n : Nat)
    (hb : 0 < a.blocks_per_chunk) (hc : BCount a n)
    (heq : n = a.blocks_per_chunk * a.max_chunks) :
    block_alloc a = none := by
  obtain ⟨hcnt, hle⟩ := hc
  have hmul : a.blocks_per_chunk * a.chunk_count ≤ a.blocks_per_chunk * a.max_chunks :=
    Nat.mul_le_mul_left _ hle
  have hlen : a.free_list.length = 0 := by omega
  have hcc : a.max_chunks ≤ a.chunk_count := by
    by_contra hltc
    push_neg at hltc
    have : a.blocks_per_chunk * (a.chunk_count + 1) ≤ a.blocks_per_chunk * a.max_chunks :=
      Nat.mul_le_mul_left _ (by omega)
    rw [Nat.mul_add] at this
    omega
  have hfl : a.free_list = [] := List.eq_nil_of_length_eq_zero hlen
  unfold block_alloc
  rw [hfl, add_chunk_eq_none a hcc]

/- ===================== Claim C1: block allocator growth bound ===================== -/

/-- Claim C1: growth bound of the block allocator.  The counting relation
BCount holds of a fresh allocator with 0 outstanding blocks, is maintained
by every allocation and free, and under it (for a nonzero
blocks_per_chunk) block_alloc succeeds whenever the outstanding count is
below blocks_per_chunk * max_chunks and returns NULL exactly on the call
that would push the count beyond the bound.  In the concrete scenario
block_size = 32, blocks_per_chunk = 4, max_chunks = 2, the first 8
allocations all succeed, exactly 2 chunk growths occur, and the 9th
allocation fails. -/
theorem block_growth_bound :
    (∀ block_size blocks_per_chunk max_chunks : Nat,
      BCount (block_allocator_init block_size blocks_per_chunk max_chunks) 0) ∧
    (∀ (a : BlockAllocator) (n : Nat), 0 < a.blocks_per_chunk → BCount a n →
      (n < a.blocks_per_chunk * a.max_chunks →
        ∃ p a1, block_alloc a = some (p, a1) ∧ BCount a1 (n + 1)) ∧
      (n = a.blocks_per_chunk * a.max_chunks → block_alloc a = none)) ∧
    (∀ (a : BlockAllocator) (n p : Nat), BCount a (n + 1) →
      BCount (block_free a (some p)) n) ∧
    ((∀ r ∈ (allocN 8 (block_allocator_init 32 4 2)).1, r ≠ none) ∧
      (allocN 8 (block_allocator_init 32 4 2)).2.chunk_count = 2 ∧
      block_alloc (allocN 8 (block_allocator_init 32 4 2)).2 = none) := by
  refine ⟨?_, ?_, ?_, by decide⟩
  · intro bs bpc mc
    constructor
    · simp [block_allocator_init]
    · simp [block_allocator_init]
  · intro a n hb hc
    constructor
    · intro hlt
      obtain ⟨p, a1, h1, h2, _⟩ := block_alloc_step_some a n hb hc hlt
      exact ⟨p, a1, h1, h2⟩
    · intro heq
      exact block_alloc_exhausted a n hb hc heq
  · intro a n p hc
    obtain ⟨hcnt, hle⟩ := hc
    constructor
    · simp [block_free]
      omega
    · simpa [block_free] using hle

/-- Witness for block_growth_bound: the first allocation of the concrete
scenario succeeds and maintains the count. -/
theorem block_growth_bound_witness :
    ∃ p a1, block_alloc (block_allocator_init 32 4 2) = some (p, a1) ∧ BCount a1 1 :=
  (block_growth_bound.2.1 (block_allocator_init 32 4 2) 0 (by decide) (by decide)).1
    (by decide)

/- ===================== Claim C9: free-list order after growth ===================== -/

/-- Claim C9: when block_allocator_add_chunk grows the allocator, the new
free list is exactly the new chunk block addresses (base + i * block_size
for i below blocks_per_chunk, a strictly increasing address sequence when
the block size is nonzero) in reverse order, in front of the old free
list; consequently the next allocation returns the highest-addressed block
of the new chunk. -/
theorem add_chunk_free_list_order (a a1 : BlockAllocator)
    (h : block_allocator_add_chunk a = some a1) :
    a1.free_list = ((List.range a.blocks_per_chunk).map
        (fun i => a.heapNext + i * a.block_size)).reverse ++ a.free_list ∧
    (0 < a.block_size →
      ((List.range a.blocks_per_chunk).map
        (fun i => a.heapNext + i * a.block_size)).Pairwise (· < ·)) ∧
    (0 < a.blocks_per_chunk →
      ∃ a2, block_alloc a1 = some
        (a.heapNext + (a.blocks_per_chunk - 1) * a.block_size, a2)) := by
  have hcc : a.chunk_count < a.max_chunks := by
    by_contra hge
    push_neg at hge
    rw [add_chunk_eq_none a hge] at h
    exact Option.noConfusion h
  rw [add_chunk_eq_some a hcc] at h
  have ha1 := (Option.some.injEq _ _).mp h
  subst ha1
  refine ⟨rfl, ?_, ?_⟩
  · intro hbs
    refine List.Pairwise.map _ ?_ (List.pairwise_lt_range a.blocks_per_chunk)
    intro i j hij
    have h1 : i * a.block_size < j * a.block_size :=
      Nat.mul_lt_mul_of_lt_of_le hij (le_refl _) hbs
    omega
  · intro hbpc
    obtain ⟨m, hm⟩ : ∃ m, a.blocks_per_chunk = m + 1 := ⟨a.blocks_per_chunk - 1, by omega⟩
    have hl : (((List.range a.blocks_per_chunk).map
        (fun i => a.heapNext + i * a.block_size)).reverse ++ a.free_list)
        = (a.heapNext + m * a.block_size) ::
          (((List.range m).map (fun i => a.heapNext + i * a.block_size)).reverse
            ++ a.free_list) := by
      rw [hm, List.range_succ, List.map_append, List.reverse_append]
      simp
    refine ⟨{ block_size := a.block_size, blocks_per_chunk := a.blocks_per_chunk
            , free_list := ((List.range m).map
                (fun i => a.heapNext + i * a.block_size)).reverse ++ a.free_list
            , chunks := a.chunks ++ [a.heapNext], chunk_count := a.chunk_count + 1
            , max_chunks := a.max_chunks
            , heapNext := a.heapNext + a.block_size * a.blocks_per_chunk }, ?_⟩
    unfold block_alloc
    dsimp only
    rw [hl]
    dsimp only
    rw [hm]
    simp

/-- Witness for add_chunk_free_list_order: growing the concrete fresh
allocator and allocating returns the highest block of the new chunk. -/
theorem add_chunk_free_list_order_witness :
    ∃ a2, block_alloc
      { block_size := 32, blocks_per_chunk := 4, free_list := [96, 64, 32, 0]
      , chunks := [0], chunk_count := 1, max_chunks := 2, heapNext := 128 }
      = some ((block_allocator_init 32 4 2).heapNext
          + ((block_allocator_init 32 4 2).blocks_per_chunk - 1)
            * (block_allocator_init 32 4 2).block_size, a2) :=
  (add_chunk_free_list_order (block_allocator_init 32 4 2)
    { block_size := 32, blocks_per_chunk := 4, free_list := [96, 64, 32, 0]
    , chunks := [0], chunk_count := 1, max_chunks := 2, heapNext := 128 }
    (by decide)).2.2 (by decide)

/- ===================== Claim C10: block_free of NULL ===================== -/

/-- Claim C10: block_free called with a NULL pointer is a no-op: NULL is
never pushed onto the free list and the entire allocator state (free
list, chunks, chunk count and all other fields) is unchanged. -/
theorem block_free_null_noop (a : BlockAllocator) : block_free a none = a := rfl

/- ===================== Claim C7: free-list invariant ===================== -/

/- The free-list invariant: `out` is the list of blocks currently held by
   the caller, `ret` the list of every pointer block_alloc ever returned.
   Every returned pointer is either outstanding or on the free list, the
   free list and the outstanding list have no duplicates and do not
   intersect, and all block addresses lie below the fresh-address
   watermark of the modelled system allocator. -/
def BInv (a : BlockAllocator) (out ret : List Nat) : Prop :=
  1 ≤ a.block_size ∧
  a.free_list.Nodup ∧
  out.Nodup ∧
  (∀ p ∈ out, p ∉ a.free_list) ∧
  (∀ p ∈ ret, p ∈ out ∨ p ∈ a.free_list) ∧
  (∀ p ∈ a.free_list, p < a.heapNext) ∧
  (∀ p ∈ out, p < a.heapNext)

instance (a : BlockAllocator) (out ret : List Nat) : Decidable (BInv a out ret) := by
  unfold BInv
  infer_instance


/-- Claim C7: under the caller discipline that only currently outstanding
pointers are freed, every pointer ever returned by block_alloc is at
every moment either outstanding or present exactly once in the free list:
the invariant holds initially, block_alloc pops the free-list head (when
the free list is nonempty) and preserves it, and block_free pushes onto
the free-list head and preserves it. -/
theorem block_free_list_invariant :
    (∀ block_size blocks_per_chunk max_chunks : Nat,
      BInv (block_allocator_init block_size blocks_per_chunk max_chunks) [] []) ∧
    (∀ (a : BlockAllocator) (out ret : List Nat) (p : Nat) (a1 : BlockAllocator),
      BInv a out ret → block_alloc a = some (p, a1) →
      BInv a1 (p :: out) (p :: ret) ∧
      (a.free_list ≠ [] → a.free_list = p :: a1.free_list)) ∧
    (∀ (a : BlockAllocator) (out ret : List Nat) (p : Nat),
      BInv a out ret → p ∈ out →
      BInv (block_free a (some p)) (out.erase p) ret ∧
      (block_free a (some p)).free_list = p :: a.free_list) := by
  refine ⟨?_, ?_, ?_⟩
  · intro bs bpc mc
    refine ⟨?_, by simp [block_allocator_init], by simp, by simp,
      by simp [block_allocator_init], by simp [block_allocator_init], by simp⟩
    simp only [block_allocator_init, BLOCK_NODE_SIZE]
    split <;> omega
  · intro a out ret p a1 hinv halloc
    obtain ⟨hbs, hfnd, hond, hdisj, hcov, hfb, hob⟩ := hinv
    cases hfl : a.free_list with
    | cons q rest =>
      have hq : block_alloc a = some (q, { a with free_list := rest }) := by
        unfold block_alloc
        rw [hfl]
      rw [hq] at halloc
      obtain ⟨h1, h2⟩ := Prod.mk.inj (Option.some.inj halloc)
      subst h1
      subst h2
      have hqrest : q ∉ rest := by
        rw [hfl] at hfnd
        exact (List.nodup_cons.mp hfnd).1
      have hrestnd : rest.Nodup := by
        rw [hfl] at hfnd
        exact (List.nodup_cons.mp hfnd).2
      have hqfree : q ∈ a.free_list := by rw [hfl]; simp
      have hqnotout : q ∉ out := fun hmem => (hdisj q hmem) hqfree
      refine ⟨⟨hbs, hrestnd, List.nodup_cons.mpr ⟨hqnotout, hond⟩, ?_, ?_, ?_, ?_⟩,
        fun _ => by simp⟩
      · intro x hx
        simp only [List.mem_cons] at hx
        show x ∉ rest
        rcases hx with rfl | hx
        · exact hqrest
        · intro hxr
          exact (hdisj x hx) (by rw [hfl]; simp [hxr])
      · intro x hx
        simp only [List.mem_cons] at hx
        rcases hx with rfl | hx
        · exact Or.inl (by simp)
        · rcases hcov x hx with h | h
          · exact Or.inl (by simp [h])
          · rw [hfl] at h
            rcases List.mem_cons.mp h with rfl | h2
            · exact Or.inl (by simp)
            · exact Or.inr h2
      · intro x hx
        exact hfb x (by rw [hfl]; exact List.mem_cons_of_mem q hx)
      · intro x hx
        simp only [List.mem_cons] at hx
        rcases hx with rfl | hx
        · exact hfb x hqfree
        · exact hob x hx
    | nil =>
      have hcc : a.chunk_count < a.max_chunks := by
        by_contra hge
        push_neg at hge
        unfold block_alloc at halloc
        rw [hfl, add_chunk_eq_none a hge] at halloc
        exact Option.noConfusion halloc
      cases hrev : ((List.range a.blocks_per_chunk).map
          (fun i => a.heapNext + i * a.block_size)).reverse with
      | nil =>
        have hadd := add_chunk_eq_some a hcc
        rw [hfl] at hadd
        unfold block_alloc at halloc
        rw [hfl, hadd] at halloc
        rw [hrev] at halloc
        simp at halloc
      | cons p0 t =>
        have hstep := block_alloc_grow a hfl hcc p0 t hrev
        rw [hstep] at halloc
        obtain ⟨h1, h2⟩ := Prod.mk.inj (Option.some.inj halloc)
        subst h1
        subst h2
        have hmem_new : ∀ x ∈ p0 :: t,
            a.heapNext ≤ x ∧ x < a.heapNext + a.block_size * a.blocks_per_chunk := by
          intro x hx
          have hx2 : x ∈ ((List.range a.blocks_per_chunk).map
              (fun i => a.heapNext + i * a.block_size)).reverse := by
            rw [hrev]; exact hx
          exact chunk_block_mem_bounds a.heapNext a.block_size a.blocks_per_chunk x hbs
            (List.mem_reverse.mp hx2)
        have hinj : ∀ i j : Nat,
            a.heapNext + i * a.block_size = a.heapNext + j * a.block_size → i = j := by
          intro i j hij
          have h3 : i * a.block_size = j * a.block_size := by omega
          exact Nat.eq_of_mul_eq_mul_right hbs h3
        have hnd_new : (p0 :: t).Nodup := by
          rw [← hrev]
          exact List.nodup_reverse.mpr
            (List.Nodup.map (fun i j h => hinj i j h) (List.nodup_range _))
        have hpt : p0 ∉ t := (List.nodup_cons.mp hnd_new).1
        have htnd : t.Nodup := (List.nodup_cons.mp hnd_new).2
        have hp0notout : p0 ∉ out := by
          intro hmem
          have h3 := hob p0 hmem
          have h4 := (hmem_new p0 (by simp)).1
          omega
        refine ⟨⟨hbs, htnd, List.nodup_cons.mpr ⟨hp0notout, hond⟩, ?_, ?_, ?_, ?_⟩,
          by simp⟩
        · intro x hx
          simp only [List.mem_cons] at hx
          show x ∉ t
          rcases hx with rfl | hx
          · exact hpt
          · intro hxt
            have h3 := hob x hx
            have h4 := (hmem_new x (List.mem_cons_of_mem p0 hxt)).1
            omega
        · intro x hx
          simp only [List.mem_cons] at hx
          rcases hx with rfl | hx
          · exact Or.inl (by simp)
          · rcases hcov x hx with h | h
            · exact Or.inl (by simp [h])
            · rw [hfl] at h
              simp at h
        · intro x hx
          show x < a.heapNext + a.block_size * a.blocks_per_chunk
          exact (hmem_new x (List.mem_cons_of_mem p0 hx)).2
        · intro x hx
          simp only [List.mem_cons] at hx
          show x < a.heapNext + a.block_size * a.blocks_per_chunk
          rcases hx with rfl | hx
          · exact (hmem_new x (by simp)).2
          · have h3 := hob x hx
            omega
  · intro a out ret p hinv hp
    obtain ⟨hbs, hfnd, hond, hdisj, hcov, hfb, hob⟩ := hinv
    have hpfree : p ∉ a.free_list := hdisj p hp
    refine ⟨⟨hbs, ?_, hond.erase p, ?_, ?_, ?_, ?_⟩, rfl⟩
    · simpa [block_free] using List.nodup_cons.mpr ⟨hpfree, hfnd⟩
    · intro x hx
      have hx2 := hond.mem_erase_iff.mp hx
      simp only [block_free, List.mem_cons]
      push_neg
      exact ⟨hx2.1, hdisj x hx2.2⟩
    · intro x hx
      rcases hcov x hx with h | h
      · by_cases hxp : x = p
        · subst hxp
          exact Or.inr (by simp [block_free])
        · exact Or.inl (hond.mem_erase_iff.mpr ⟨hxp, h⟩)
      · exact Or.inr (by simp [block_free, h])
    · intro x hx
      simp only [block_free, List.mem_cons] at hx
      rcases hx with rfl | hx
      · exact hob x hp
      · exact hfb x hx
    · intro x hx
      exact hob x (hond.mem_erase_iff.mp hx).2

/-- Witness for block_free_list_invariant: freeing an outstanding block of
a concrete allocator state preserves the invariant and pushes the block
onto the free-list head. -/
theorem block_free_list_invariant_witness :
    BInv (block_free ⟨32, 4, [0], [0], 1, 2, 128⟩ (some 32)) (([32] : List Nat).erase 32)
      [32, 0] ∧
    (block_free ⟨32, 4, [0], [0], 1, 2, 128⟩ (some 32)).free_list = 32 :: [0] :=
  block_free_list_invariant.2.2 ⟨32, 4, [0], [0], 1, 2, 128⟩ [32] [32, 0] 32
    (by decide) (by decide)

/- ===================== Claim C8: reuse without growth ===================== -/

theorem allocN_budget (k : Nat) : ∀ (a : BlockAllocator) (n : Nat),
    0 < a.blocks_per_chunk → BCount a n → n + k ≤ a.blocks_per_chunk * a.max_chunks →
    (∀ r ∈ (allocN k a).1, r ≠ none) ∧ BCount (allocN k a).2 (n + k) ∧
    (allocN k a).1.length = k := by
  induction k with
  | zero =>
    intro a n hb hc _
    simpa [allocN] using hc
  | succ m ih =>
    intro a n hb hc hbud
    obtain ⟨p, a1, hsome, hc1, hbpc, hmc, hbs, _⟩ :=
      block_alloc_step_some a n hb hc (by omega)
    have hrec := ih a1 (n + 1) (by rw [hbpc]; exact hb) hc1 (by rw [hbpc, hmc]; omega)
    simp only [allocN, hsome]
    refine ⟨?_, ?_, by simpa using hrec.2.2⟩
    · intro r hr
      rcases List.mem_cons.mp hr with rfl | hr
      · simp
      · exact hrec.1 r hr
    · have heq : n + (m + 1) = n + 1 + m := by omega
      rw [heq]
      exact hrec.2.1

theorem freeAll_spec (ps : List Nat) : ∀ a : BlockAllocator,
    (freeAll a ps).free_list.length = a.free_list.length + ps.length ∧
    (freeAll a ps).chunk_count = a.chunk_count := by
  induction ps with
  | nil => intro a; simp [freeAll]
  | cons p t ih =>
    intro a
    have hstep : freeAll a (p :: t) = freeAll (block_free a (some p)) t := rfl
    rw [hstep]
    have hrec := ih (block_free a (some p))
    constructor
    · rw [hrec.1]
      simp [block_free]
      omega
    · rw [hrec.2]
      rfl

theorem allocN_pop (k : Nat) : ∀ a : BlockAllocator, k ≤ a.free_list.length →
    (∀ r ∈ (allocN k a).1, r ≠ none) ∧ (allocN k a).2.chunk_count = a.chunk_count := by
  induction k with
  | zero => intro a _; simp [allocN]
  | succ m ih =>
    intro a hk
    cases hfl : a.free_list with
    | nil =>
      rw [hfl] at hk
      simp at hk
    | cons q rest =>
      have hstep : block_alloc a = some (q, { a with free_list := rest }) := by
        unfold block_alloc
        rw [hfl]
      simp only [allocN, hstep]
      have hrec := ih { a with free_list := rest } (by rw [hfl] at hk; simp at hk ⊢; omega)
      refine ⟨?_, by simpa using hrec.2⟩
      intro r hr
      rcases List.mem_cons.mp hr with rfl | hr
      · simp
      · exact hrec.1 r hr

theorem reduceOption_length_all_some (l : List (Option Nat)) (h : ∀ r ∈ l, r ≠ none) :
    l.reduceOption.length = l.length := by
  induction l with
  | nil => simp
  | cons a t ih =>
    cases a with
    | none => exact absurd rfl (h none (by simp))
    | some x =>
      simp only [List.reduceOption_cons_of_some, List.length_cons]
      rw [ih (fun r hr => h r (by simp [hr]))]

/-- Claim C8: within the growth budget (N at most
blocks_per_chunk * max_chunks, blocks_per_chunk nonzero), allocating N
blocks from a fresh allocator succeeds, and after freeing all N returned
blocks in any order, allocating N blocks again succeeds on every
allocation without any additional chunk growth: the chunk count after the
second batch equals the chunk count after the first. -/
theorem block_alloc_reuse (bs bpc mc N : Nat) (hbpc : 0 < bpc) (hN : N ≤ bpc * mc)
    (ps : List Nat)
    (hperm : ps.Perm ((allocN N (block_allocator_init bs bpc mc)).1.reduceOption)) :
    (∀ r ∈ (allocN N (block_allocator_init bs bpc mc)).1, r ≠ none) ∧
    (∀ r ∈ (allocN N (freeAll (allocN N (block_allocator_init bs bpc mc)).2 ps)).1,
      r ≠ none) ∧
    (allocN N (freeAll (allocN N (block_allocator_init bs bpc mc)).2 ps)).2.chunk_count =
      (allocN N (block_allocator_init bs bpc mc)).2.chunk_count := by
  have h0 : BCount (block_allocator_init bs bpc mc) 0 := by
    constructor
    · simp [block_allocator_init]
    · simp [block_allocator_init]
  have hbpc0 : 0 < (block_allocator_init bs bpc mc).blocks_per_chunk := by
    simpa [block_allocator_init] using hbpc
  have hbud := allocN_budget N (block_allocator_init bs bpc mc) 0 hbpc0 h0
    (by simp [block_allocator_init]; omega)
  have hlen : (allocN N (block_allocator_init bs bpc mc)).1.length = N := hbud.2.2
  have hred : ((allocN N (block_allocator_init bs bpc mc)).1.reduceOption).length = N := by
    rw [reduceOption_length_all_some _ hbud.1, hlen]
  have hps : ps.length = N := by rw [hperm.length_eq, hred]
  have hc1 : BCount (allocN N (block_allocator_init bs bpc mc)).2 N := by
    simpa using hbud.2.1
  have hfa := freeAll_spec ps (allocN N (block_allocator_init bs bpc mc)).2
  have hNfree : N ≤ (freeAll (allocN N (block_allocator_init bs bpc mc)).2 ps).free_list.length := by
    rw [hfa.1, hps]
    omega
  have hpop := allocN_pop N (freeAll (allocN N (block_allocator_init bs bpc mc)).2 ps) hNfree
  exact ⟨hbud.1, hpop.1, by rw [hpop.2, hfa.2]⟩

/-- Witness for block_alloc_reuse: the concrete scenario with N = 8 blocks
from a (32, 4, 2) allocator, freed in allocation order. -/
theorem block_alloc_reuse_witness :
    (allocN 8 (freeAll (allocN 8 (block_allocator_init 32 4 2)).2
        [96, 64, 32, 0, 224, 192, 160, 128])).2.chunk_count =
      (allocN 8 (block_allocator_init 32 4 2)).2.chunk_count :=
  (block_alloc_reuse 32 4 2 8 (by decide) (by decide)
    [96, 64, 32, 0, 224, 192, 160, 128] (by decide)).2.2

/- ===================== Tracking manager lemmas ===================== -/

theorem storeHeader_load_self (hs : List (Nat × MemoryHeader)) (a : Nat) (h : MemoryHeader) :
    loadHeader (storeHeader hs a h) a = some h := by
  induction hs with
  | nil => simp [storeHeader, loadHeader]
  | cons e t ih =>
    obtain ⟨b, g⟩ := e
    by_cases hb : b = a
    · simp [storeHeader, loadHeader, hb]
    · simp [storeHeader, loadHeader, hb, ih]

theorem storeHeader_load_other (hs : List (Nat × MemoryHeader)) (a x : Nat)
    (h : MemoryHeader) (hne : x ≠ a) :
    loadHeader (storeHeader hs a h) x = loadHeader hs x := by
  induction hs with
  | nil => simp [storeHeader, loadHeader, Ne.symm hne]
  | cons e t ih =>
    obtain ⟨b, g⟩ := e
    by_cases hb : b = a
    · subst hb
      simp [storeHeader, loadHeader, Ne.symm hne]
    · by_cases hbx : b = x
      · simp [storeHeader, loadHeader, hb, hbx, hne]
      · simp [storeHeader, loadHeader, hb, hbx, ih]

theorem sysMalloc_shape (st : MMState) (n : Nat) : ∃ ok : Bool,
    (sysMalloc st n).2.sysLog = st.sysLog ++ [(n, ok)] ∧
    ((sysMalloc st n).1 = if ok then some st.heapNext else none) ∧
    (sysMalloc st n).2.allocations = st.allocations ∧
    (sysMalloc st n).2.headers = st.headers ∧
    (sysMalloc st n).2.allocation_count = st.allocation_count := by
  cases hplan : st.mallocPlan with
  | nil =>
    exact ⟨true, by simp [sysMalloc, hplan], by simp [sysMalloc, hplan],
      by simp [sysMalloc, hplan], by simp [sysMalloc, hplan], by simp [sysMalloc, hplan]⟩
  | cons ok rest =>
    cases ok with
    | true =>
      exact ⟨true, by simp [sysMalloc, hplan], by simp [sysMalloc, hplan],
        by simp [sysMalloc, hplan], by simp [sysMalloc, hplan], by simp [sysMalloc, hplan]⟩
    | false =>
      exact ⟨false, by simp [sysMalloc, hplan], by simp [sysMalloc, hplan],
        by simp [sysMalloc, hplan], by simp [sysMalloc, hplan], by simp [sysMalloc, hplan]⟩

theorem set_pool_preserves (st : MMState) (c : BlockCategory) (p : BlockPool) :
    (set_pool_for_category st c p).allocations = st.allocations ∧
    (set_pool_for_category st c p).headers = st.headers ∧
    (set_pool_for_category st c p).sysLog = st.sysLog ∧
    (set_pool_for_category st c p).allocation_count = st.allocation_count := by
  cases c <;> exact ⟨rfl, rfl, rfl, rfl⟩

/- The four possible outcomes of allocate_from_pool, as seen through the
   tracking state: a pool hit (no system call), growth (one successful
   block-sized request), a full pool (no system call, failure), or a
   failed block-sized request. -/
theorem allocate_from_pool_shape (st : MMState) (pool : BlockPool) :
    (allocate_from_pool st pool).2.2.allocations = st.allocations ∧
    (allocate_from_pool st pool).2.2.headers = st.headers ∧
    (((allocate_from_pool st pool).1 ≠ none ∧
        (allocate_from_pool st pool).2.2.sysLog = st.sysLog) ∨
     ((allocate_from_pool st pool).1 ≠ none ∧
        (allocate_from_pool st pool).2.2.sysLog = st.sysLog ++ [(pool.block_size, true)]) ∨
     ((allocate_from_pool st pool).1 = none ∧
        (allocate_from_pool st pool).2.2.sysLog = st.sysLog) ∨
     ((allocate_from_pool st pool).1 = none ∧
        (allocate_from_pool st pool).2.2.sysLog = st.sysLog ++ [(pool.block_size, false)])) := by
  rcases hpt : poolTakeFirst pool.blocks with ⟨ro, entries⟩
  cases ro with
  | some b =>
    refine ⟨?_, ?_, Or.inl ⟨?_, ?_⟩⟩ <;> simp [allocate_from_pool, hpt]
  | none =>
    by_cases hfull : MAX_BLOCKS_PER_POOL ≤ pool.blocks.length
    · refine ⟨?_, ?_, Or.inr (Or.inr (Or.inl ⟨?_, ?_⟩))⟩ <;>
        simp [allocate_from_pool, hpt, add_block_to_pool, hfull]
    · obtain ⟨ok, hm_log, hm_res, hm_alloc, hm_head, _⟩ := sysMalloc_shape st pool.block_size
      rcases hms : sysMalloc st pool.block_size with ⟨res0, st1⟩
      rw [hms] at hm_log hm_res hm_alloc hm_head
      dsimp only at hm_log hm_res hm_alloc hm_head
      cases ok with
      | false =>
        simp only [if_neg (by simp : ¬ (false : Bool) = true)] at hm_res
        refine ⟨?_, ?_, Or.inr (Or.inr (Or.inr ⟨?_, ?_⟩))⟩ <;>
          simp [allocate_from_pool, hpt, add_block_to_pool, hfull, hms, hm_res,
            hm_log, hm_alloc, hm_head]
      | true =>
        simp only [if_pos rfl] at hm_res
        have hlast : (pool.blocks ++ [(st.heapNext, false)]).getLast?
            = some (st.heapNext, false) := List.getLast?_concat _
        refine ⟨?_, ?_, Or.inr (Or.inl ⟨?_, ?_⟩)⟩ <;>
          simp [allocate_from_pool, hpt, add_block_to_pool, hfull, hms, hm_res,
            hlast, hm_log, hm_alloc, hm_head]

/- ===================== Claim C2: corruption detection on free ===================== -/

/-- Claim C2: when memory_free is called on a pointer whose tracking
header does not carry MEMORY_MAGIC (corrupted, or cleared by an earlier
free of the same pointer), it reports corruption including the original
allocation site stored in the header and returns with the entire manager
state unchanged except for the free_calls counter: the outstanding list,
the headers, the pools and the record of calls to the underlying
deallocator are all untouched. -/
theorem memory_free_corruption_aborts (st : MMState) (q : Nat) (h : MemoryHeader)
    (file : String) (line : Nat)
    (hload : loadHeader st.headers (q - headerSize) = some h)
    (hmagic : h.magic ≠ MEMORY_MAGIC) :
    memory_free st (some q) file line =
      ({ st with free_calls := st.free_calls + 1 }, .corruption file line h.file h.line) := by
  unfold memory_free
  dsimp only
  rw [show loadHeader ({ st with free_calls := st.free_calls + 1 } : MMState).headers
      (q - headerSize) = some h from hload]
  dsimp only
  rw [if_pos hmagic]

/-- Witness for memory_free_corruption_aborts: a double free.  One block is
allocated at site ("f", 1) and freed; the second free of the same pointer
finds the cleared magic, reports the original site ("f", 1), and forwards
nothing: the state changes only in free_calls. -/
theorem memory_free_corruption_aborts_witness :
    memory_free
        (memory_free ((runAllocs (memory_manager_init []) [(10, "f", 1)]).2)
          (some 48) "x" 9).1
        (some 48) "w" 2 =
      ({ (memory_free ((runAllocs (memory_manager_init []) [(10, "f", 1)]).2)
            (some 48) "x" 9).1 with
          free_calls := (memory_free ((runAllocs (memory_manager_init [])
            [(10, "f", 1)]).2) (some 48) "x" 9).1.free_calls + 1 },
        .corruption "w" 2 "f" 1) :=
  memory_free_corruption_aborts _ 48 ⟨10, 0, "f", 1⟩ "w" 2 (by decide) (by decide)

/- ===================== Claim C3: memory_alloc contract ===================== -/

theorem track_sysLog (st : MMState) (p size : Nat) (file : String) (line : Nat) :
    (track_allocation st p size file line).sysLog = st.sysLog := rfl

theorem track_allocations (st : MMState) (p size : Nat) (file : String) (line : Nat) :
    (track_allocation st p size file line).allocations = p :: st.allocations := rfl

theorem track_headers (st : MMState) (p size : Nat) (file : String) (line : Nat) :
    (track_allocation st p size file line).headers
      = storeHeader st.headers p ⟨size, MEMORY_MAGIC, file, line⟩ := rfl

/- The per-call contract of memory_alloc (the amended claim): on success
   the header just in front of the returned pointer carries the size, the
   magic number and the call site, and is head-inserted into the
   outstanding list; the call returns NULL exactly when its own final
   (fallback) system request of size + headerSize bytes fails; a failed
   call leaves the tracking state unchanged; a large request issues
   exactly one system request of size + headerSize bytes; a pooled
   request issues no system request (pool hit), one successful request of
   the pool block size (pool growth), or falls back to a request of
   size + headerSize bytes (after a full pool, or after a failed growth
   request). -/
def MemoryAllocSpec (st : MMState) (size : Nat) (file : String) (line : Nat) : Prop :=
  (∀ q, (memory_alloc st size file line).1 = some q →
    headerSize ≤ q ∧
    loadHeader (memory_alloc st size file line).2.headers (q - headerSize)
      = some ⟨size, MEMORY_MAGIC, file, line⟩ ∧
    (memory_alloc st size file line).2.allocations = (q - headerSize) :: st.allocations) ∧
  ((memory_alloc st size file line).1 = none ↔
    ((memory_alloc st size file line).2.sysLog.drop st.sysLog.length).getLast?
      = some (size + headerSize, false)) ∧
  ((memory_alloc st size file line).1 = none →
    (memory_alloc st size file line).2.allocations = st.allocations ∧
    (memory_alloc st size file line).2.headers = st.headers) ∧
  (get_block_category (size + headerSize) = .large →
    ∃ ok, (memory_alloc st size file line).2.sysLog
      = st.sysLog ++ [(size + headerSize, ok)]) ∧
  (get_block_category (size + headerSize) ≠ .large →
    (memory_alloc st size file line).2.sysLog = st.sysLog ∨
    (memory_alloc st size file line).2.sysLog = st.sysLog
      ++ [(category_pool_block_size st (get_block_category (size + headerSize)), true)] ∨
    (∃ ok, (memory_alloc st size file line).2.sysLog = st.sysLog
      ++ [(size + headerSize, ok)]) ∨
    (∃ ok, (memory_alloc st size file line).2.sysLog = st.sysLog
      ++ [(category_pool_block_size st (get_block_category (size + headerSize)), false),
          (size + headerSize, ok)]))

theorem memory_alloc_large_spec (st : MMState) (size : Nat) (file : String) (line : Nat)
    (hcat : get_block_category (size + headerSize) = .large) :
    MemoryAllocSpec st size file line := by
  rcases hms : sysMalloc { st with malloc_calls := st.malloc_calls + 1 }
      (size + headerSize) with ⟨res2, st2⟩
  have hmsh := sysMalloc_shape { st with malloc_calls := st.malloc_calls + 1 }
    (size + headerSize)
  rw [hms] at hmsh
  dsimp only at hmsh
  obtain ⟨ok, hm_log, hm_res, hm_alloc, hm_head, _⟩ := hmsh
  rw [show ({ st with malloc_calls := st.malloc_calls + 1 } : MMState).sysLog
    = st.sysLog from rfl] at hm_log
  rw [show ({ st with malloc_calls := st.malloc_calls + 1 } : MMState).allocations
    = st.allocations from rfl] at hm_alloc
  rw [show ({ st with malloc_calls := st.malloc_calls + 1 } : MMState).headers
    = st.headers from rfl] at hm_head
  cases ok with
  | true =>
    rw [if_pos rfl] at hm_res
    have hEQ : memory_alloc st size file line
        = (some (({ st with malloc_calls := st.malloc_calls + 1 } : MMState).heapNext
              + headerSize),
           track_allocation st2
             ({ st with malloc_calls := st.malloc_calls + 1 } : MMState).heapNext
             size file line) := by
      unfold memory_alloc
      dsimp only [get_pool_for_category]
      rw [hcat]
      dsimp only
      rw [hms, hm_res]
    unfold MemoryAllocSpec
    rw [hEQ]
    dsimp only
    refine ⟨?_, ?_, ?_, ?_, ?_⟩
    · intro q hq
      have hbq : ({ st with malloc_calls := st.malloc_calls + 1 } : MMState).heapNext
          + headerSize = q := by simpa using hq
      subst hbq
      refine ⟨Nat.le_add_left _ _, ?_, ?_⟩
      · rw [Nat.add_sub_cancel, track_headers]
        exact storeHeader_load_self _ _ _
      · rw [Nat.add_sub_cancel, track_allocations, hm_alloc]
    · rw [track_sysLog, hm_log, List.drop_left]
      simp
    · intro hnone
      simp at hnone
    · intro _
      exact ⟨true, by rw [track_sysLog, hm_log]⟩
    · intro hne
      exact absurd hcat hne
  | false =>
    rw [if_neg (by simp)] at hm_res
    subst hm_res
    have hEQ : memory_alloc st size file line = (none, st2) := by
      unfold memory_alloc
      dsimp only [get_pool_for_category]
      rw [hcat]
      dsimp only
      rw [hms]
    unfold MemoryAllocSpec
    rw [hEQ]
    dsimp only
    refine ⟨?_, ?_, ?_, ?_, ?_⟩
    · intro q hq
      simp at hq
    · rw [hm_log, List.drop_left]
      simp
    · intro _
      exact ⟨hm_alloc, hm_head⟩
    · intro _
      exact ⟨false, hm_log⟩
    · intro hne
      exact absurd hcat hne

theorem memory_alloc_pooled_spec (st : MMState) (size : Nat) (file : String) (line : Nat)
    (c : BlockCategory) (pool : BlockPool)
    (hcat : get_block_category (size + headerSize) = c) (hlarge : c ≠ BlockCategory.large)
    (hpool : get_pool_for_category { st with malloc_calls := st.malloc_calls + 1 } c
      = some pool)
    (hpbs : category_pool_block_size st c = pool.block_size) :
    MemoryAllocSpec st size file line := by
  rcases hafp : allocate_from_pool { st with malloc_calls := st.malloc_calls + 1 } pool
    with ⟨r1, pool1, stp⟩
  have hshape := allocate_from_pool_shape { st with malloc_calls := st.malloc_calls + 1 } pool
  rw [hafp] at hshape
  dsimp only at hshape
  obtain ⟨hap_alloc, hap_head, hap_log⟩ := hshape
  rw [show ({ st with malloc_calls := st.malloc_calls + 1 } : MMState).sysLog
    = st.sysLog from rfl] at hap_log
  rw [show ({ st with malloc_calls := st.malloc_calls + 1 } : MMState).allocations
    = st.allocations from rfl] at hap_alloc
  rw [show ({ st with malloc_calls := st.malloc_calls + 1 } : MMState).headers
    = st.headers from rfl] at hap_head
  have hXp := set_pool_preserves stp c pool1
  cases r1 with
  | some b =>
    have hEQ : memory_alloc st size file line
        = (some (b + headerSize),
           track_allocation (set_pool_for_category stp c pool1) b size file line) := by
      unfold memory_alloc
      dsimp only
      rw [hcat, hpool]
      dsimp only
      rw [hafp]
    unfold MemoryAllocSpec
    rw [hEQ]
    dsimp only
    refine ⟨?_, ?_, ?_, ?_, ?_⟩
    · intro q hq
      have hbq : b + headerSize = q := by simpa using hq
      subst hbq
      refine ⟨Nat.le_add_left _ _, ?_, ?_⟩
      · rw [Nat.add_sub_cancel, track_headers]
        exact storeHeader_load_self _ _ _
      · rw [Nat.add_sub_cancel, track_allocations, hXp.1, hap_alloc]
    · rw [track_sysLog, hXp.2.2.1]
      rcases hap_log with ⟨_, hlg⟩ | ⟨_, hlg⟩ | ⟨hnone, _⟩ | ⟨hnone, _⟩
      · rw [hlg, List.drop_length]
        simp
      · rw [hlg, List.drop_left]
        simp
      · simp at hnone
      · simp at hnone
    · intro hnone
      simp at hnone
    · intro hcatL
      rw [hcat] at hcatL
      exact absurd hcatL hlarge
    · intro _
      rw [track_sysLog, hXp.2.2.1, hcat, hpbs]
      rcases hap_log with ⟨_, hlg⟩ | ⟨_, hlg⟩ | ⟨hnone, _⟩ | ⟨hnone, _⟩
      · exact Or.inl hlg
      · exact Or.inr (Or.inl hlg)
      · simp at hnone
      · simp at hnone
  | none =>
    rcases hms : sysMalloc (set_pool_for_category stp c pool1) (size + headerSize)
      with ⟨res2, st2⟩
    have hmsh := sysMalloc_shape (set_pool_for_category stp c pool1) (size + headerSize)
    rw [hms] at hmsh
    dsimp only at hmsh
    obtain ⟨ok, hm_log, hm_res, hm_alloc, hm_head, _⟩ := hmsh
    rw [hXp.2.2.1] at hm_log
    rw [hXp.1] at hm_alloc
    rw [hXp.2.1] at hm_head
    have hap_lognone :
        stp.sysLog = st.sysLog ∨ stp.sysLog = st.sysLog ++ [(pool.block_size, false)] := by
      rcases hap_log with ⟨hne, _⟩ | ⟨hne, _⟩ | ⟨_, hlg⟩ | ⟨_, hlg⟩
      · simp at hne
      · simp at hne
      · exact Or.inl hlg
      · exact Or.inr hlg
    cases ok with
    | true =>
      rw [if_pos rfl] at hm_res
      have hEQ : memory_alloc st size file line
          = (some ((set_pool_for_category stp c pool1).heapNext + headerSize),
             track_allocation st2 (set_pool_for_category stp c pool1).heapNext
               size file line) := by
        unfold memory_alloc
        dsimp only
        rw [hcat, hpool]
        dsimp only
        rw [hafp]
        dsimp only
        rw [hms, hm_res]
      unfold MemoryAllocSpec
      rw [hEQ]
      dsimp only
      refine ⟨?_, ?_, ?_, ?_, ?_⟩
      · intro q hq
        have hbq : (set_pool_for_category stp c pool1).heapNext + headerSize = q := by
          simpa using hq
        subst hbq
        refine ⟨Nat.le_add_left _ _, ?_, ?_⟩
        · rw [Nat.add_sub_cancel, track_headers]
          exact storeHeader_load_self _ _ _
        · rw [Nat.add_sub_cancel, track_allocations, hm_alloc, hap_alloc]
      · rw [track_sysLog, hm_log]
        rcases hap_lognone with hlg | hlg
        · rw [hlg, List.drop_left]
          simp
        · rw [hlg, List.append_assoc, List.drop_left]
          simp
      · intro hnone
        simp at hnone
      · intro hcatL
        rw [hcat] at hcatL
        exact absurd hcatL hlarge
      · intro _
        rw [track_sysLog, hm_log, hcat, hpbs]
        rcases hap_lognone with hlg | hlg
        · exact Or.inr (Or.inr (Or.inl ⟨true, by rw [hlg]⟩))
        · refine Or.inr (Or.inr (Or.inr ⟨true, ?_⟩))
          rw [hlg, List.append_assoc]
          rfl
    | false =>
      rw [if_neg (by simp)] at hm_res
      subst hm_res
      have hEQ : memory_alloc st size file line = (none, st2) := by
        unfold memory_alloc
        dsimp only
        rw [hcat, hpool]
        dsimp only
        rw [hafp]
        dsimp only
        rw [hms]
      unfold MemoryAllocSpec
      rw [hEQ]
      dsimp only
      refine ⟨?_, ?_, ?_, ?_, ?_⟩
      · intro q hq
        simp at hq
      · rw [hm_log]
        rcases hap_lognone with hlg | hlg
        · rw [hlg, List.drop_left]
          simp
        · rw [hlg, List.append_assoc, List.drop_left]
          simp
      · intro _
        exact ⟨by rw [hm_alloc, hap_alloc], by rw [hm_head, hap_head]⟩
      · intro hcatL
        rw [hcat] at hcatL
        exact absurd hcatL hlarge
      · intro _
        rw [hm_log, hcat, hpbs]
        rcases hap_lognone with hlg | hlg
        · exact Or.inr (Or.inr (Or.inl ⟨false, by rw [hlg]⟩))
        · refine Or.inr (Or.inr (Or.inr ⟨false, ?_⟩))
          rw [hlg, List.append_assoc]
          rfl

/-- Claim C3 counterexample: the claim as stated fails.  For size 10 from
a fresh manager, size + header_size is 58 bytes, but the one system
request the call makes is for 64 bytes (the small-pool block size): the
call is served from the size-class pool, not by a direct system request
of size + header_size bytes. -/
theorem memory_alloc_pool_request_cex :
    (memory_alloc (memory_manager_init []) 10 "a.c" 1).2.sysLog = [(64, true)] ∧
    10 + headerSize = 58 ∧ (58 : Nat) ≠ 64 ∧
    (memory_alloc (memory_manager_init []) 10 "a.c" 1).1 = some 48 := by
  exact ⟨by decide, by decide, by decide, by decide⟩

/-- Claim C3 (amended): for every state, size and call site, memory_alloc
computes total = size + header_size; if total exceeds the largest pool
class it requests exactly total bytes from the system allocator,
otherwise it serves the request from the size-class pool (a pool hit
makes no system request; growing the pool makes one successful request of
the pool block size; if the pooled attempt fails it falls back to one
request of total bytes).  On success it initializes the header (size,
magic = MEMORY_MAGIC, site), head-inserts the record into the global
outstanding list and returns the pointer just past the header; it returns
NULL exactly when the final fallback system request of total bytes
fails, leaving the outstanding list and headers unchanged. -/
theorem memory_alloc_contract (st : MMState) (size : Nat) (file : String) (line : Nat) :
    MemoryAllocSpec st size file line := by
  cases hcat : get_block_category (size + headerSize) with
  | large => exact memory_alloc_large_spec st size file line hcat
  | tiny =>
    exact memory_alloc_pooled_spec st size file line .tiny st.tiny_pool hcat
      (by simp) rfl rfl
  | small =>
    exact memory_alloc_pooled_spec st size file line .small st.small_pool hcat
      (by simp) rfl rfl
  | medium =>
    exact memory_alloc_pooled_spec st size file line .medium st.medium_pool hcat
      (by simp) rfl rfl

/-- Witness for memory_alloc_contract: the first allocation of a fresh
manager stores the header with its call site in front of the returned
pointer. -/
theorem memory_alloc_contract_witness :
    loadHeader (memory_alloc (memory_manager_init []) 10 "a.c" 1).2.headers
        (48 - headerSize) = some ⟨10, MEMORY_MAGIC, "a.c", 1⟩ :=
  ((memory_alloc_contract (memory_manager_init []) 10 "a.c" 1).1 48 (by decide)).2.1

/- ===================== Claim C6: leak accounting ===================== -/

theorem poolTakeFirst_all_used (entries : List (Nat × Bool))
    (h : ∀ e ∈ entries, e.2 = true) :
    poolTakeFirst entries = (none, entries) := by
  induction entries with
  | nil => rfl
  | cons e t ih =>
    obtain ⟨b, u⟩ := e
    have hu : u = true := h (b, u) (by simp)
    subst hu
    simp [poolTakeFirst, ih (fun e he => h e (by simp [he]))]

theorem sysMalloc_empty_plan (st : MMState) (n : Nat) (hplan : st.mallocPlan = []) :
    sysMalloc st n = (some st.heapNext,
      { st with heapNext := st.heapNext + n, sysLog := st.sysLog ++ [(n, true)] }) := by
  unfold sysMalloc
  rw [hplan]

theorem get_pool_bump (st : MMState) (v : Nat) (c : BlockCategory) :
    get_pool_for_category { st with malloc_calls := v } c = get_pool_for_category st c := by
  cases c <;> rfl

theorem get_set_pool (st : MMState) (c d : BlockCategory) (p q : BlockPool)
    (h : get_pool_for_category (set_pool_for_category st c p) d = some q) :
    q = p ∨ get_pool_for_category st d = some q := by
  cases c <;> cases d <;>
    simp only [get_pool_for_category, set_pool_for_category, Option.some.injEq] at h ⊢ <;>
    first
      | exact Option.noConfusion h
      | exact Or.inl h.symm
      | exact Or.inr h

theorem storeHeader_mem (hs : List (Nat × MemoryHeader)) (a : Nat) (h : MemoryHeader)
    (e : Nat × MemoryHeader) (he : e ∈ storeHeader hs a h) : e ∈ hs ∨ e = (a, h) := by
  induction hs with
  | nil =>
    simp [storeHeader] at he
    exact Or.inr he
  | cons f t ih =>
    obtain ⟨b, g⟩ := f
    by_cases hb : b = a
    · simp only [storeHeader, if_pos hb] at he
      rcases List.mem_cons.mp he with rfl | he2
      · exact Or.inr rfl
      · exact Or.inl (List.mem_cons_of_mem _ he2)
    · simp only [storeHeader, if_neg hb] at he
      rcases List.mem_cons.mp he with rfl | he2
      · exact Or.inl (by simp)
      · rcases ih he2 with h3 | h3
        · exact Or.inl (List.mem_cons_of_mem _ h3)
        · exact Or.inr h3

/- The pool freshness condition of the allocation phase: every pool block
   is below the fresh-address watermark and currently in use (no block has
   been released yet). -/
def PoolFresh (pool : BlockPool) (hn : Nat) : Prop :=
  0 < pool.block_size ∧ ∀ e ∈ pool.blocks, e.1 < hn ∧ e.2 = true

/- Well-formedness during a pure allocation phase (no frees yet): the
   malloc script is exhausted (every system request succeeds), every pool
   block is used and below the watermark, every stored header and every
   outstanding record is below the watermark, the outstanding list has no
   duplicates, and allocation_count equals its length. -/
def AllocPhase (st : MMState) : Prop :=
  st.mallocPlan = [] ∧
  (∀ c pool, get_pool_for_category st c = some pool → PoolFresh pool st.heapNext) ∧
  (∀ e ∈ st.headers, e.1 < st.heapNext) ∧
  (∀ p ∈ st.allocations, p < st.heapNext) ∧
  st.allocations.Nodup ∧
  st.allocation_count = st.allocations.length

theorem allocate_from_pool_fresh (st : MMState) (pool : BlockPool)
    (hplan : st.mallocPlan = []) (hall : ∀ e ∈ pool.blocks, e.2 = true) :
    (MAX_BLOCKS_PER_POOL ≤ pool.blocks.length ∧
      allocate_from_pool st pool = (none, pool, st)) ∨
    (allocate_from_pool st pool
      = (some st.heapNext,
         { pool with blocks := pool.blocks ++ [(st.heapNext, true)] },
         { st with heapNext := st.heapNext + pool.block_size,
                   sysLog := st.sysLog ++ [(pool.block_size, true)] })) := by
  have hscan := poolTakeFirst_all_used pool.blocks hall
  by_cases hfull : MAX_BLOCKS_PER_POOL ≤ pool.blocks.length
  · left
    refine ⟨hfull, ?_⟩
    simp [allocate_from_pool, hscan, add_block_to_pool, hfull]
  · right
    unfold allocate_from_pool
    rw [hscan]
    dsimp only
    unfold add_block_to_pool
    rw [if_neg hfull, sysMalloc_empty_plan st _ hplan]
    dsimp only
    rw [List.getLast?_concat]
    dsimp only
    rw [List.dropLast_concat]

theorem PoolFresh.mono (pool : BlockPool) (h1 h2 : Nat) (hf : PoolFresh pool h1)
    (hle : h1 ≤ h2) : PoolFresh pool h2 := by
  refine ⟨hf.1, ?_⟩
  intro e he
  have h3 := hf.2 e he
  exact ⟨by omega, h3.2⟩

theorem get_pool_eq_of_pools_eq (st1 st2 : MMState)
    (h1 : st1.tiny_pool = st2.tiny_pool) (h2 : st1.small_pool = st2.small_pool)
    (h3 : st1.medium_pool = st2.medium_pool) (d : BlockCategory) :
    get_pool_for_category st1 d = get_pool_for_category st2 d := by
  cases d <;> simp [get_pool_for_category, h1, h2, h3]

theorem set_pool_more (st : MMState) (c : BlockCategory) (p : BlockPool) :
    (set_pool_for_category st c p).heapNext = st.heapNext ∧
    (set_pool_for_category st c p).mallocPlan = st.mallocPlan := by
  cases c <;> exact ⟨rfl, rfl⟩

/- Finishing a successful allocation: track_allocation on a state whose
   tracking fields agree with the starting state and whose watermark has
   strictly advanced yields the head-inserted record and re-establishes
   the allocation-phase invariant. -/
theorem track_fresh_final (st st2 : MMState) (size : Nat) (file : String) (line : Nat)
    (h_alloc : st2.allocations = st.allocations)
    (h_head : st2.headers = st.headers)
    (h_cnt : st2.allocation_count = st.allocation_count)
    (h_hn : st.heapNext < st2.heapNext)
    (h_plan : st2.mallocPlan = [])
    (h_pools : ∀ c pool, get_pool_for_category st2 c = some pool →
      PoolFresh pool st2.heapNext)
    (hheads : ∀ e ∈ st.headers, e.1 < st.heapNext)
    (hallocs : ∀ p ∈ st.allocations, p < st.heapNext)
    (hnd : st.allocations.Nodup)
    (hcount : st.allocation_count = st.allocations.length) :
    (track_allocation st2 st.heapNext size file line).allocations
      = st.heapNext :: st.allocations ∧
    (track_allocation st2 st.heapNext size file line).allocation_count
      = st.allocation_count + 1 ∧
    st.heapNext < (track_allocation st2 st.heapNext size file line).heapNext ∧
    loadHeader (track_allocation st2 st.heapNext size file line).headers st.heapNext
      = some ⟨size, MEMORY_MAGIC, file, line⟩ ∧
    (∀ x, x < st.heapNext →
      loadHeader (track_allocation st2 st.heapNext size file line).headers x
        = loadHeader st.headers x) ∧
    AllocPhase (track_allocation st2 st.heapNext size file line) := by
  have htr_pools : ∀ d, get_pool_for_category (track_allocation st2 st.heapNext size file line) d
      = get_pool_for_category st2 d :=
    get_pool_eq_of_pools_eq _ st2 rfl rfl rfl
  refine ⟨by rw [track_allocations, h_alloc], ?_, ?_, ?_, ?_, ?_⟩
  · show st2.allocation_count + 1 = st.allocation_count + 1
    rw [h_cnt]
  · show st.heapNext < st2.heapNext
    exact h_hn
  · rw [track_headers]
    exact storeHeader_load_self _ _ _
  · intro x hx
    rw [track_headers, storeHeader_load_other _ _ _ _ (by omega), h_head]
  · refine ⟨h_plan, ?_, ?_, ?_, ?_, ?_⟩
    · intro c pool hc
      rw [htr_pools] at hc
      exact h_pools c pool hc
    · intro e he
      rw [track_headers] at he
      rcases storeHeader_mem st2.headers st.heapNext _ e he with h3 | h3
      · rw [h_head] at h3
        have := hheads e h3
        show e.1 < st2.heapNext
        omega
      · subst h3
        exact h_hn
    · intro p hp
      rw [track_allocations, h_alloc] at hp
      rcases List.mem_cons.mp hp with rfl | hp
      · exact h_hn
      · have := hallocs p hp
        show p < st2.heapNext
        omega
    · rw [track_allocations, h_alloc]
      refine List.nodup_cons.mpr ⟨?_, hnd⟩
      intro hmem
      have := hallocs st.heapNext hmem
      omega
    · rw [track_allocations, h_alloc]
      show st2.allocation_count + 1 = (st.heapNext :: st.allocations).length
      rw [h_cnt, hcount]
      simp

theorem memory_alloc_fresh_large (st : MMState) (size : Nat) (file : String) (line : Nat)
    (hcat : get_block_category (size + headerSize) = .large)
    (hwf : AllocPhase st) :
    (memory_alloc st size file line).1 = some (st.heapNext + headerSize) ∧
    (memory_alloc st size file line).2.allocations = st.heapNext :: st.allocations ∧
    (memory_alloc st size file line).2.allocation_count = st.allocation_count + 1 ∧
    st.heapNext < (memory_alloc st size file line).2.heapNext ∧
    loadHeader (memory_alloc st size file line).2.headers st.heapNext
      = some ⟨size, MEMORY_MAGIC, file, line⟩ ∧
    (∀ x, x < st.heapNext →
      loadHeader (memory_alloc st size file line).2.headers x = loadHeader st.headers x) ∧
    AllocPhase (memory_alloc st size file line).2 := by
  obtain ⟨hplan, hpools, hheads, hallocs, hnd, hcount⟩ := hwf
  have hms := sysMalloc_empty_plan { st with malloc_calls := st.malloc_calls + 1 }
    (size + headerSize) hplan
  have hEQ : memory_alloc st size file line
      = (some (st.heapNext + headerSize),
         track_allocation
           { st with malloc_calls := st.malloc_calls + 1,
                     heapNext := st.heapNext + (size + headerSize),
                     sysLog := st.sysLog ++ [(size + headerSize, true)] }
           st.heapNext size file line) := by
    unfold memory_alloc
    dsimp only [get_pool_for_category]
    rw [hcat]
    dsimp only
    rw [hms]
  have hfin := track_fresh_final st
    { st with malloc_calls := st.malloc_calls + 1,
              heapNext := st.heapNext + (size + headerSize),
              sysLog := st.sysLog ++ [(size + headerSize, true)] }
    size file line rfl rfl rfl
    (by show st.heapNext < st.heapNext + (size + headerSize)
        have h48 : headerSize = 48 := rfl
        omega)
    hplan
    (by intro c pool hc
        have hpe : ∀ d, get_pool_for_category
            { st with malloc_calls := st.malloc_calls + 1,
                      heapNext := st.heapNext + (size + headerSize),
                      sysLog := st.sysLog ++ [(size + headerSize, true)] } d
            = get_pool_for_category st d :=
          fun d => get_pool_eq_of_pools_eq _ st rfl rfl rfl d
        rw [hpe] at hc
        exact PoolFresh.mono pool st.heapNext _ (hpools c pool hc)
          (by show st.heapNext ≤ st.heapNext + (size + headerSize); omega))
    hheads hallocs hnd hcount
  rw [hEQ]
  exact ⟨rfl, hfin.1, hfin.2.1, hfin.2.2.1, hfin.2.2.2.1, hfin.2.2.2.2.1, hfin.2.2.2.2.2⟩

theorem memory_alloc_pooled_success_step (st : MMState) (size : Nat) (file : String)
    (line : Nat) (c : BlockCategory) (pool pool1 : BlockPool) (stp : MMState)
    (hcat : get_block_category (size + headerSize) = c)
    (hpool1 : get_pool_for_category { st with malloc_calls := st.malloc_calls + 1 } c
      = some pool)
    (hafp : allocate_from_pool { st with malloc_calls := st.malloc_calls + 1 } pool
      = (some st.heapNext, pool1, stp))
    (hstp_alloc : stp.allocations = st.allocations)
    (hstp_head : stp.headers = st.headers)
    (hstp_cnt : stp.allocation_count = st.allocation_count)
    (hstp_hn : st.heapNext < stp.heapNext)
    (hstp_plan : stp.mallocPlan = [])
    (hstp_pools : ∀ d poold, get_pool_for_category stp d = some poold →
      PoolFresh poold stp.heapNext)
    (hpool1fresh : PoolFresh pool1 stp.heapNext)
    (hheads : ∀ e ∈ st.headers, e.1 < st.heapNext)
    (hallocs : ∀ p ∈ st.allocations, p < st.heapNext)
    (hnd : st.allocations.Nodup)
    (hcount : st.allocation_count = st.allocations.length) :
    (memory_alloc st size file line).1 = some (st.heapNext + headerSize) ∧
    (memory_alloc st size file line).2.allocations = st.heapNext :: st.allocations ∧
    (memory_alloc st size file line).2.allocation_count = st.allocation_count + 1 ∧
    st.heapNext < (memory_alloc st size file line).2.heapNext ∧
    loadHeader (memory_alloc st size file line).2.headers st.heapNext
      = some ⟨size, MEMORY_MAGIC, file, line⟩ ∧
    (∀ x, x < st.heapNext →
      loadHeader (memory_alloc st size file line).2.headers x = loadHeader st.headers x) ∧
    AllocPhase (memory_alloc st size file line).2 := by
  have hXpres := set_pool_preserves stp c pool1
  have hXmore := set_pool_more stp c pool1
  have hEQ : memory_alloc st size file line
      = (some (st.heapNext + headerSize),
         track_allocation (set_pool_for_category stp c pool1) st.heapNext size file line) := by
    unfold memory_alloc
    dsimp only
    rw [hcat, hpool1]
    dsimp only
    rw [hafp]
  have hfin := track_fresh_final st (set_pool_for_category stp c pool1) size file line
    (by rw [hXpres.1, hstp_alloc])
    (by rw [hXpres.2.1, hstp_head])
    (by rw [hXpres.2.2.2, hstp_cnt])
    (by rw [hXmore.1]; exact hstp_hn)
    (by rw [hXmore.2]; exact hstp_plan)
    (by intro d poold hd
        rcases get_set_pool stp c d pool1 poold hd with h4 | h4
        · subst h4
          exact PoolFresh.mono poold stp.heapNext _ hpool1fresh (le_of_eq hXmore.1.symm)
        · exact PoolFresh.mono poold stp.heapNext _ (hstp_pools d poold h4)
            (le_of_eq hXmore.1.symm))
    hheads hallocs hnd hcount
  rw [hEQ]
  exact ⟨rfl, hfin.1, hfin.2.1, hfin.2.2.1, hfin.2.2.2.1, hfin.2.2.2.2.1, hfin.2.2.2.2.2⟩

theorem memory_alloc_pooled_fallback_step (st : MMState) (size : Nat) (file : String)
    (line : Nat) (c : BlockCategory) (pool pool1 : BlockPool) (stp : MMState)
    (hcat : get_block_category (size + headerSize) = c)
    (hpool1 : get_pool_for_category { st with malloc_calls := st.malloc_calls + 1 } c
      = some pool)
    (hafp : allocate_from_pool { st with malloc_calls := st.malloc_calls + 1 } pool
      = (none, pool1, stp))
    (hstp_alloc : stp.allocations = st.allocations)
    (hstp_head : stp.headers = st.headers)
    (hstp_cnt : stp.allocation_count = st.allocation_count)
    (hstp_hn : stp.heapNext = st.heapNext)
    (hstp_plan : stp.mallocPlan = [])
    (hstp_pools : ∀ d poold, get_pool_for_category stp d = some poold →
      PoolFresh poold stp.heapNext)
    (hpool1fresh : PoolFresh pool1 stp.heapNext)
    (hheads : ∀ e ∈ st.headers, e.1 < st.heapNext)
    (hallocs : ∀ p ∈ st.allocations, p < st.heapNext)
    (hnd : st.allocations.Nodup)
    (hcount : st.allocation_count = st.allocations.length) :
    (memory_alloc st size file line).1 = some (st.heapNext + headerSize) ∧
    (memory_alloc st size file line).2.allocations = st.heapNext :: st.allocations ∧
    (memory_alloc st size file line).2.allocation_count = st.allocation_count + 1 ∧
    st.heapNext < (memory_alloc st size file line).2.heapNext ∧
    loadHeader (memory_alloc st size file line).2.headers st.heapNext
      = some ⟨size, MEMORY_MAGIC, file, line⟩ ∧
    (∀ x, x < st.heapNext →
      loadHeader (memory_alloc st size file line).2.headers x = loadHeader st.headers x) ∧
    AllocPhase (memory_alloc st size file line).2 := by
  have hXpres := set_pool_preserves stp c pool1
  have hXmore := set_pool_more stp c pool1
  have hXplan : (set_pool_for_category stp c pool1).mallocPlan = [] := by
    rw [hXmore.2]
    exact hstp_plan
  have hXhn : (set_pool_for_category stp c pool1).heapNext = st.heapNext := by
    rw [hXmore.1]
    exact hstp_hn
  have hms := sysMalloc_empty_plan (set_pool_for_category stp c pool1)
    (size + headerSize) hXplan
  rw [hXhn] at hms
  have hEQ : memory_alloc st size file line
      = (some (st.heapNext + headerSize),
         track_allocation
           { set_pool_for_category stp c pool1 with
               heapNext := st.heapNext + (size + headerSize),
               sysLog := (set_pool_for_category stp c pool1).sysLog
                 ++ [(size + headerSize, true)] }
           st.heapNext size file line) := by
    unfold memory_alloc
    dsimp only
    rw [hcat, hpool1]
    dsimp only
    rw [hafp]
    dsimp only
    rw [hms]
  have hpe : ∀ d, get_pool_for_category
      { set_pool_for_category stp c pool1 with
          heapNext := st.heapNext + (size + headerSize),
          sysLog := (set_pool_for_category stp c pool1).sysLog
            ++ [(size + headerSize, true)] } d
      = get_pool_for_category (set_pool_for_category stp c pool1) d :=
    fun d => get_pool_eq_of_pools_eq _ _ rfl rfl rfl d
  have hfin := track_fresh_final st
    { set_pool_for_category stp c pool1 with
        heapNext := st.heapNext + (size + headerSize),
        sysLog := (set_pool_for_category stp c pool1).sysLog
          ++ [(size + headerSize, true)] }
    size file line
    (by show (set_pool_for_category stp c pool1).allocations = st.allocations
        rw [hXpres.1, hstp_alloc])
    (by show (set_pool_for_category stp c pool1).headers = st.headers
        rw [hXpres.2.1, hstp_head])
    (by show (set_pool_for_category stp c pool1).allocation_count = st.allocation_count
        rw [hXpres.2.2.2, hstp_cnt])
    (by show st.heapNext < st.heapNext + (size + headerSize)
        have h48 : headerSize = 48 := rfl
        omega)
    (by show (set_pool_for_category stp c pool1).mallocPlan = []
        exact hXplan)
    (by intro d poold hd
        rw [hpe] at hd
        have hle : stp.heapNext ≤ st.heapNext + (size + headerSize) := by
          rw [hstp_hn]
          omega
        rcases get_set_pool stp c d pool1 poold hd with h4 | h4
        · subst h4
          exact PoolFresh.mono poold stp.heapNext _ hpool1fresh hle
        · exact PoolFresh.mono poold stp.heapNext _ (hstp_pools d poold h4) hle)
    hheads hallocs hnd hcount
  rw [hEQ]
  exact ⟨rfl, hfin.1, hfin.2.1, hfin.2.2.1, hfin.2.2.2.1, hfin.2.2.2.2.1, hfin.2.2.2.2.2⟩

theorem memory_alloc_fresh_pooled (st : MMState) (size : Nat) (file : String) (line : Nat)
    (c : BlockCategory) (pool : BlockPool)
    (hcat : get_block_category (size + headerSize) = c)
    (hpool : get_pool_for_category st c = some pool)
    (hwf : AllocPhase st) :
    (memory_alloc st size file line).1 = some (st.heapNext + headerSize) ∧
    (memory_alloc st size file line).2.allocations = st.heapNext :: st.allocations ∧
    (memory_alloc st size file line).2.allocation_count = st.allocation_count + 1 ∧
    st.heapNext < (memory_alloc st size file line).2.heapNext ∧
    loadHeader (memory_alloc st size file line).2.headers st.heapNext
      = some ⟨size, MEMORY_MAGIC, file, line⟩ ∧
    (∀ x, x < st.heapNext →
      loadHeader (memory_alloc st size file line).2.headers x = loadHeader st.headers x) ∧
    AllocPhase (memory_alloc st size file line).2 := by
  obtain ⟨hplan, hpools, hheads, hallocs, hnd, hcount⟩ := hwf
  have hfresh := hpools c pool hpool
  have hall : ∀ e ∈ pool.blocks, e.2 = true := fun e he => (hfresh.2 e he).2
  have hpool1 : get_pool_for_category { st with malloc_calls := st.malloc_calls + 1 } c
      = some pool := by
    rw [get_pool_bump]
    exact hpool
  have hplan1 : ({ st with malloc_calls := st.malloc_calls + 1 } : MMState).mallocPlan
      = [] := hplan
  rcases allocate_from_pool_fresh { st with malloc_calls := st.malloc_calls + 1 } pool
      hplan1 hall with ⟨hfull, hafp⟩ | hafp
  · exact memory_alloc_pooled_fallback_step st size file line c pool pool
      { st with malloc_calls := st.malloc_calls + 1 } hcat hpool1 hafp
      rfl rfl rfl rfl hplan
      (by intro d poold hd
          rw [get_pool_bump] at hd
          exact hpools d poold hd)
      hfresh hheads hallocs hnd hcount
  · refine memory_alloc_pooled_success_step st size file line c pool
      { pool with blocks := pool.blocks
          ++ [(({ st with malloc_calls := st.malloc_calls + 1 } : MMState).heapNext, true)] }
      { { st with malloc_calls := st.malloc_calls + 1 } with
          heapNext := ({ st with malloc_calls := st.malloc_calls + 1 } : MMState).heapNext
            + pool.block_size,
          sysLog := ({ st with malloc_calls := st.malloc_calls + 1 } : MMState).sysLog
            ++ [(pool.block_size, true)] }
      hcat hpool1 hafp rfl rfl rfl
      (show st.heapNext < st.heapNext + pool.block_size by
        have := hfresh.1
        omega)
      hplan ?_ ?_ hheads hallocs hnd hcount
    · intro d poold hd
      have hpe : ∀ e, get_pool_for_category
          { { st with malloc_calls := st.malloc_calls + 1 } with
              heapNext := ({ st with malloc_calls := st.malloc_calls + 1 } : MMState).heapNext
                + pool.block_size,
              sysLog := ({ st with malloc_calls := st.malloc_calls + 1 } : MMState).sysLog
                ++ [(pool.block_size, true)] } e
          = get_pool_for_category st e :=
        fun e => get_pool_eq_of_pools_eq _ st rfl rfl rfl e
      rw [hpe] at hd
      exact PoolFresh.mono poold st.heapNext _ (hpools d poold hd)
        (show st.heapNext ≤ st.heapNext + pool.block_size by omega)
    · refine ⟨hfresh.1, ?_⟩
      intro e he
      have he2 : e ∈ pool.blocks ++ [(st.heapNext, true)] := he
      rcases List.mem_append.mp he2 with h5 | h5
      · have h6 := hfresh.2 e h5
        exact ⟨show e.1 < st.heapNext + pool.block_size by omega, h6.2⟩
      · have h6 : e = (st.heapNext, true) := by simpa using h5
        subst h6
        refine ⟨?_, rfl⟩
        show st.heapNext < st.heapNext + pool.block_size
        have := hfresh.1
        omega

theorem memory_alloc_fresh_step (st : MMState) (size : Nat) (file : String) (line : Nat)
    (hwf : AllocPhase st) :
    (memory_alloc st size file line).1 = some (st.heapNext + headerSize) ∧
    (memory_alloc st size file line).2.allocations = st.heapNext :: st.allocations ∧
    (memory_alloc st size file line).2.allocation_count = st.allocation_count + 1 ∧
    st.heapNext < (memory_alloc st size file line).2.heapNext ∧
    loadHeader (memory_alloc st size file line).2.headers st.heapNext
      = some ⟨size, MEMORY_MAGIC, file, line⟩ ∧
    (∀ x, x < st.heapNext →
      loadHeader (memory_alloc st size file line).2.headers x = loadHeader st.headers x) ∧
    AllocPhase (memory_alloc st size file line).2 := by
  cases hcat : get_block_category (size + headerSize) with
  | large => exact memory_alloc_fresh_large st size file line hcat hwf
  | tiny => exact memory_alloc_fresh_pooled st size file line .tiny st.tiny_pool hcat rfl hwf
  | small => exact memory_alloc_fresh_pooled st size file line .small st.small_pool hcat rfl hwf
  | medium =>
    exact memory_alloc_fresh_pooled st size file line .medium st.medium_pool hcat rfl hwf

theorem runAllocs_fresh (reqs : List (Nat × String × Nat)) : ∀ st : MMState, AllocPhase st →
    ∃ addrs : List Nat,
      (runAllocs st reqs).1 = addrs.map (fun a => some (a + headerSize)) ∧
      addrs.length = reqs.length ∧
      (∀ a ∈ addrs, st.heapNext ≤ a ∧ a < (runAllocs st reqs).2.heapNext) ∧
      addrs.Nodup ∧
      (runAllocs st reqs).2.allocations = addrs.reverse ++ st.allocations ∧
      (runAllocs st reqs).2.allocation_count = st.allocation_count + reqs.length ∧
      (∀ pr ∈ addrs.zip reqs, loadHeader (runAllocs st reqs).2.headers pr.1
        = some ⟨pr.2.1, MEMORY_MAGIC, pr.2.2.1, pr.2.2.2⟩) ∧
      (∀ x, x < st.heapNext →
        loadHeader (runAllocs st reqs).2.headers x = loadHeader st.headers x) ∧
      st.heapNext ≤ (runAllocs st reqs).2.heapNext ∧
      AllocPhase (runAllocs st reqs).2 := by
  induction reqs with
  | nil =>
    intro st hwf
    exact ⟨[], by simp [runAllocs], by simp, by simp, by simp, by simp [runAllocs],
      by simp [runAllocs], by simp, fun x _ => by simp [runAllocs], by simp [runAllocs], hwf⟩
  | cons r rest ih =>
    intro st hwf
    obtain ⟨hres, halloc, hcnt, hhn, hload, hpres, hwf2⟩ :=
      memory_alloc_fresh_step st r.1 r.2.1 r.2.2 hwf
    obtain ⟨addrs2, g1, g2, g3, g4, g5, g6, g7, g8, g9, g10⟩ :=
      ih (memory_alloc st r.1 r.2.1 r.2.2).2 hwf2
    have hrun : runAllocs st (r :: rest)
        = ((memory_alloc st r.1 r.2.1 r.2.2).1
            :: (runAllocs (memory_alloc st r.1 r.2.1 r.2.2).2 rest).1,
           (runAllocs (memory_alloc st r.1 r.2.1 r.2.2).2 rest).2) := rfl
    refine ⟨st.heapNext :: addrs2, ?_, ?_, ?_, ?_, ?_, ?_, ?_, ?_, ?_, ?_⟩
    · rw [hrun]
      dsimp only
      rw [hres, g1]
      simp
    · simp [g2]
    · intro a ha
      rw [hrun]
      dsimp only
      rcases List.mem_cons.mp ha with rfl | ha
      · constructor
        · exact le_refl _
        · have := g9
          omega
      · have h3 := g3 a ha
        constructor
        · omega
        · exact h3.2
    · refine List.nodup_cons.mpr ⟨?_, g4⟩
      intro hmem
      have := (g3 st.heapNext hmem).1
      omega
    · rw [hrun]
      dsimp only
      rw [g5, halloc]
      simp
    · rw [hrun]
      dsimp only
      rw [g6, hcnt]
      simp
      omega
    · intro pr hpr
      rw [hrun]
      dsimp only
      rcases List.mem_cons.mp hpr with rfl | hpr
      · rw [g8 st.heapNext hhn, hload]
      · exact g7 pr hpr
    · intro x hx
      rw [hrun]
      dsimp only
      rw [g8 x (by omega), hpres x hx]
    · rw [hrun]
      dsimp only
      omega
    · rw [hrun]
      dsimp only
      exact g10

theorem return_to_pool_preserves (st : MMState) (p : Nat) (c : BlockCategory) :
    (return_to_pool st p c).allocations = st.allocations ∧
    (return_to_pool st p c).allocation_count = st.allocation_count ∧
    (return_to_pool st p c).headers = st.headers := by
  cases c with
  | large => exact ⟨rfl, rfl, rfl⟩
  | tiny =>
    unfold return_to_pool
    dsimp only [get_pool_for_category]
    cases hmu : markUnused st.tiny_pool.blocks p with
    | some entries =>
      exact ⟨(set_pool_preserves _ _ _).1, (set_pool_preserves _ _ _).2.2.2,
        (set_pool_preserves _ _ _).2.1⟩
    | none => exact ⟨rfl, rfl, rfl⟩
  | small =>
    unfold return_to_pool
    dsimp only [get_pool_for_category]
    cases hmu : markUnused st.small_pool.blocks p with
    | some entries =>
      exact ⟨(set_pool_preserves _ _ _).1, (set_pool_preserves _ _ _).2.2.2,
        (set_pool_preserves _ _ _).2.1⟩
    | none => exact ⟨rfl, rfl, rfl⟩
  | medium =>
    unfold return_to_pool
    dsimp only [get_pool_for_category]
    cases hmu : markUnused st.medium_pool.blocks p with
    | some entries =>
      exact ⟨(set_pool_preserves _ _ _).1, (set_pool_preserves _ _ _).2.2.2,
        (set_pool_preserves _ _ _).2.1⟩
    | none => exact ⟨rfl, rfl, rfl⟩

theorem memory_free_tracked_step (st : MMState) (q : Nat) (h : MemoryHeader)
    (file : String) (line : Nat)
    (hload : loadHeader st.headers (q - headerSize) = some h)
    (hmagic : h.magic = MEMORY_MAGIC) :
    (memory_free st (some q) file line).2 = .freed ∧
    (memory_free st (some q) file line).1.allocations
      = st.allocations.erase (q - headerSize) ∧
    (memory_free st (some q) file line).1.allocation_count = st.allocation_count - 1 ∧
    (∀ x, x ≠ q - headerSize →
      loadHeader (memory_free st (some q) file line).1.headers x
        = loadHeader st.headers x) := by
  have hload1 : loadHeader ({ st with free_calls := st.free_calls + 1 } : MMState).headers
      (q - headerSize) = some h := hload
  have hEQ : memory_free st (some q) file line
      = (return_to_pool
          { st with free_calls := st.free_calls + 1,
                    allocations := st.allocations.erase (q - headerSize),
                    allocation_count := st.allocation_count - 1,
                    total_allocated := st.total_allocated - h.size,
                    headers := storeHeader st.headers (q - headerSize)
                      { h with magic := 0 } }
          (q - headerSize) (get_block_category (h.size + headerSize)), .freed) := by
    unfold memory_free
    dsimp only
    rw [hload1]
    dsimp only
    rw [if_neg (by simp [hmagic])]
    unfold untrack_allocation
    rw [hload1]
    dsimp only
    rw [if_neg (by simp [hmagic])]
  have hrp := return_to_pool_preserves
    { st with free_calls := st.free_calls + 1,
              allocations := st.allocations.erase (q - headerSize),
              allocation_count := st.allocation_count - 1,
              total_allocated := st.total_allocated - h.size,
              headers := storeHeader st.headers (q - headerSize) { h with magic := 0 } }
    (q - headerSize) (get_block_category (h.size + headerSize))
  rw [hEQ]
  refine ⟨rfl, ?_, ?_, ?_⟩
  · rw [hrp.1]
  · rw [hrp.2.1]
  · intro x hx
    rw [hrp.2.2]
    exact storeHeader_load_other _ _ _ _ hx

theorem runFrees_spec (ffile : String) (fline : Nat) (fs : List Nat) : ∀ st : MMState,
    (∀ q ∈ fs, headerSize ≤ q ∧ (q - headerSize) ∈ st.allocations ∧
      ∃ h : MemoryHeader, loadHeader st.headers (q - headerSize) = some h ∧
        h.magic = MEMORY_MAGIC) →
    fs.Nodup →
    st.allocations.Nodup →
    st.allocation_count = st.allocations.length →
    (runFrees st fs ffile fline).allocations
      = st.allocations.filter (fun p => decide ((p + headerSize) ∉ fs)) ∧
    (runFrees st fs ffile fline).allocation_count = st.allocation_count - fs.length ∧
    (∀ x, (x + headerSize) ∉ fs →
      loadHeader (runFrees st fs ffile fline).headers x = loadHeader st.headers x) := by
  induction fs with
  | nil =>
    intro st _ _ _ _
    refine ⟨by simp [runFrees], by simp [runFrees], fun x _ => rfl⟩
  | cons q rest ih =>
    intro st H1 H2 H3 H4
    obtain ⟨hq48, hmem, h, hload, hmagic⟩ := H1 q (by simp)
    have hstep := memory_free_tracked_step st q h ffile fline hload hmagic
    have hrun : runFrees st (q :: rest) ffile fline
        = runFrees (memory_free st (some q) ffile fline).1 rest ffile fline := rfl
    have hqne : ∀ q2 ∈ rest, q2 - headerSize ≠ q - headerSize := by
      intro q2 hq2 hcon
      obtain ⟨hq2_48, _, _⟩ := H1 q2 (by simp [hq2])
      have hq2q : q2 = q := by omega
      subst hq2q
      exact (List.nodup_cons.mp H2).1 hq2
    have H1' : ∀ q2 ∈ rest, headerSize ≤ q2 ∧
        (q2 - headerSize) ∈ (memory_free st (some q) ffile fline).1.allocations ∧
        ∃ h2 : MemoryHeader,
          loadHeader (memory_free st (some q) ffile fline).1.headers (q2 - headerSize)
            = some h2 ∧ h2.magic = MEMORY_MAGIC := by
      intro q2 hq2
      obtain ⟨ha, hb, h2, hc, hd⟩ := H1 q2 (by simp [hq2])
      refine ⟨ha, ?_, h2, ?_, hd⟩
      · rw [hstep.2.1]
        exact (H3.mem_erase_iff).mpr ⟨hqne q2 hq2, hb⟩
      · rw [hstep.2.2.2 (q2 - headerSize) (hqne q2 hq2)]
        exact hc
    have H3' : (memory_free st (some q) ffile fline).1.allocations.Nodup := by
      rw [hstep.2.1]
      exact H3.erase _
    have H4' : (memory_free st (some q) ffile fline).1.allocation_count
        = (memory_free st (some q) ffile fline).1.allocations.length := by
      rw [hstep.2.2.1, hstep.2.1, H4, List.length_erase_of_mem hmem]
    have hrec := ih (memory_free st (some q) ffile fline).1 H1'
      (List.nodup_cons.mp H2).2 H3' H4'
    refine ⟨?_, ?_, ?_⟩
    · rw [hrun, hrec.1, hstep.2.1, H3.erase_eq_filter, List.filter_filter]
      apply List.filter_congr
      intro x hx
      have hxq : (x + headerSize = q) ↔ (x = q - headerSize) := by omega
      by_cases hA : x + headerSize ∈ rest
      · simp [hA]
      · by_cases hB : x = q - headerSize
        · subst hB
          simp [show q - headerSize + headerSize = q from by omega]
        · simp [hA, hB, hxq]
    · rw [hrun, hrec.2.1, hstep.2.2.1]
      simp only [List.length_cons]
      omega
    · intro x hx
      have hx1 : x + headerSize ∉ rest := fun hc => hx (List.mem_cons_of_mem _ hc)
      have hx2 : x ≠ q - headerSize := by
        intro hc
        apply hx
        have hxq : x + headerSize = q := by omega
        rw [hxq]
        exact List.mem_cons_self _ _
      rw [hrun, hrec.2.2 x hx1, hstep.2.2.2 x hx2]

theorem mem_zip_of_mem_left {β : Type} (l1 : List Nat) : ∀ l2 : List β,
    l1.length = l2.length → ∀ a ∈ l1, ∃ b, (a, b) ∈ l1.zip l2 := by
  induction l1 with
  | nil =>
    intro l2 _ a ha
    simp at ha
  | cons x t ih =>
    intro l2 hlen a ha
    cases l2 with
    | nil => simp at hlen
    | cons y t2 =>
      rcases List.mem_cons.mp ha with rfl | ha
      · exact ⟨y, by simp⟩
      · obtain ⟨b, hb⟩ := ih t2 (by simpa using hlen) a ha
        exact ⟨b, List.mem_cons_of_mem _ hb⟩

theorem filter_out_length (addrs : List Nat) (hnd : addrs.Nodup) :
    ∀ fs : List Nat, fs.Nodup → (∀ q ∈ fs, ∃ a ∈ addrs, q = a + headerSize) →
    (addrs.filter (fun p => decide ((p + headerSize) ∉ fs))).length
      = addrs.length - fs.length := by
  intro fs
  induction fs with
  | nil =>
    intro _ _
    simp
  | cons q rest ihf =>
    intro hfs hsub
    obtain ⟨a0, ha0, hq⟩ := hsub q (by simp)
    have hL := ihf (List.nodup_cons.mp hfs).2 (fun q2 h2 => hsub q2 (by simp [h2]))
    have hLnd : (addrs.filter (fun p => decide ((p + headerSize) ∉ rest))).Nodup :=
      hnd.filter _
    have ha0L : a0 ∈ addrs.filter (fun p => decide ((p + headerSize) ∉ rest)) := by
      rw [List.mem_filter]
      refine ⟨ha0, ?_⟩
      simp only [decide_eq_true_eq]
      intro hcon
      rw [← hq] at hcon
      exact (List.nodup_cons.mp hfs).1 hcon
    have hsplit : addrs.filter (fun p => decide ((p + headerSize) ∉ q :: rest))
        = (addrs.filter (fun p => decide ((p + headerSize) ∉ rest))).filter
            (fun p => p != a0) := by
      rw [List.filter_filter]
      apply List.filter_congr
      intro x hx
      have hxa : (x + headerSize = q) ↔ (x = a0) := by omega
      by_cases hA : x + headerSize ∈ rest
      · simp [hA]
      · by_cases hB : x = a0
        · subst hB
          simp [show x + headerSize = q from by omega]
        · simp [hA, hB, hxa]
    rw [hsplit, ← List.Nodup.erase_eq_filter hLnd a0, List.length_erase_of_mem ha0L, hL]
    simp only [List.length_cons]
    omega

theorem memory_manager_init_alloc_phase : AllocPhase (memory_manager_init []) := by
  refine ⟨rfl, ?_, by simp [memory_manager_init], by simp [memory_manager_init],
    by simp [memory_manager_init], rfl⟩
  intro c pool hc
  cases c with
  | tiny =>
    simp only [get_pool_for_category, Option.some.injEq] at hc
    refine ⟨?_, ?_⟩
    · rw [← hc]
      norm_num [memory_manager_init, init_block_pool, TINY_BLOCK_SIZE]
    · intro e he
      rw [← hc] at he
      simp [memory_manager_init, init_block_pool] at he
  | small =>
    simp only [get_pool_for_category, Option.some.injEq] at hc
    refine ⟨?_, ?_⟩
    · rw [← hc]
      norm_num [memory_manager_init, init_block_pool, SMALL_BLOCK_SIZE]
    · intro e he
      rw [← hc] at he
      simp [memory_manager_init, init_block_pool] at he
  | medium =>
    simp only [get_pool_for_category, Option.some.injEq] at hc
    refine ⟨?_, ?_⟩
    · rw [← hc]
      norm_num [memory_manager_init, init_block_pool, MEDIUM_BLOCK_SIZE]
    · intro e he
      rw [← hc] at he
      simp [memory_manager_init, init_block_pool] at he
  | large => simp [get_pool_for_category] at hc

/-- Claim C6: from a fresh memory manager (with an always-succeeding
system allocator), every memory_alloc in a request list succeeds; after
freeing any duplicate-free selection of M of the returned pointers with
M < N, the report walks exactly N - M records, and every walked record
carries the size, file and line of the original allocation call site of
an unfreed pointer. -/
theorem tracking_leak_accounting (reqs : List (Nat × String × Nat)) (fs : List Nat)
    (ffile : String) (fline : Nat)
    (hsub : ∀ q ∈ fs, some q ∈ (runAllocs (memory_manager_init []) reqs).1)
    (hfs : fs.Nodup)
    (hM : fs.length < reqs.length) :
    (∀ r ∈ (runAllocs (memory_manager_init []) reqs).1, r ≠ none) ∧
    (memory_print_report
        (runFrees (runAllocs (memory_manager_init []) reqs).2 fs ffile fline)).length
      = reqs.length - fs.length ∧
    (∀ rec ∈ memory_print_report
        (runFrees (runAllocs (memory_manager_init []) reqs).2 fs ffile fline),
      ∃ pr ∈ (runAllocs (memory_manager_init []) reqs).1.zip reqs,
        pr.1 ∉ fs.map some ∧ rec = some (pr.2.1, pr.2.2.1, pr.2.2.2)) := by
  obtain ⟨addrs, h1, h2, h3, h4, h5, h6, h7, h8, h9, h10⟩ :=
    runAllocs_fresh reqs (memory_manager_init []) memory_manager_init_alloc_phase
  have hall : ∀ r ∈ (runAllocs (memory_manager_init []) reqs).1, r ≠ none := by
    rw [h1]
    intro r hr
    rcases List.mem_map.mp hr with ⟨a, _, rfl⟩
    simp
  have h5' : (runAllocs (memory_manager_init []) reqs).2.allocations = addrs.reverse := by
    rw [h5]
    simp [memory_manager_init]
  have h6' : (runAllocs (memory_manager_init []) reqs).2.allocation_count = reqs.length := by
    rw [h6]
    simp [memory_manager_init]
  have hptr : ∀ q ∈ fs, ∃ a ∈ addrs, q = a + headerSize := by
    intro q hq
    have hmem := hsub q hq
    rw [h1] at hmem
    rcases List.mem_map.mp hmem with ⟨a, ha, heq⟩
    exact ⟨a, ha, (Option.some.inj heq).symm⟩
  have H1 : ∀ q ∈ fs, headerSize ≤ q ∧
      (q - headerSize) ∈ (runAllocs (memory_manager_init []) reqs).2.allocations ∧
      ∃ h : MemoryHeader,
        loadHeader (runAllocs (memory_manager_init []) reqs).2.headers (q - headerSize)
          = some h ∧ h.magic = MEMORY_MAGIC := by
    intro q hq
    obtain ⟨a, ha, rfl⟩ := hptr q hq
    have hsubq : a + headerSize - headerSize = a := by omega
    refine ⟨Nat.le_add_left _ _, ?_, ?_⟩
    · rw [hsubq, h5', List.mem_reverse]
      exact ha
    · obtain ⟨b, hb⟩ := mem_zip_of_mem_left addrs reqs h2 a ha
      refine ⟨⟨b.1, MEMORY_MAGIC, b.2.1, b.2.2⟩, ?_, rfl⟩
      rw [hsubq]
      exact h7 (a, b) hb
  have hfrees := runFrees_spec ffile fline fs (runAllocs (memory_manager_init []) reqs).2
    H1 hfs (by rw [h5']; exact List.nodup_reverse.mpr h4) (by rw [h5', h6']; simp [h2])
  have hcnt2 : (runFrees (runAllocs (memory_manager_init []) reqs).2 fs
      ffile fline).allocation_count = reqs.length - fs.length := by
    rw [hfrees.2.1, h6']
  have hreport : memory_print_report
      (runFrees (runAllocs (memory_manager_init []) reqs).2 fs ffile fline)
      = (runFrees (runAllocs (memory_manager_init []) reqs).2 fs ffile fline).allocations.map
          (fun p => (loadHeader (runFrees (runAllocs (memory_manager_init []) reqs).2 fs
            ffile fline).headers p).map (fun h => (h.size, h.file, h.line))) := by
    unfold memory_print_report
    rw [if_neg (by rw [hcnt2]; omega)]
  refine ⟨hall, ?_, ?_⟩
  · rw [hreport, List.length_map, hfrees.1, h5', List.filter_reverse, List.length_reverse,
      filter_out_length addrs h4 fs hfs hptr, h2]
  · intro rec hrec
    rw [hreport] at hrec
    rcases List.mem_map.mp hrec with ⟨p, hp, rfl⟩
    rw [hfrees.1, h5'] at hp
    have hp2 := List.mem_filter.mp hp
    have hpin : p ∈ addrs := List.mem_reverse.mp hp2.1
    have hnotfs : p + headerSize ∉ fs := by
      have := hp2.2
      simpa using this
    obtain ⟨b, hb⟩ := mem_zip_of_mem_left addrs reqs h2 p hpin
    refine ⟨(some (p + headerSize), b), ?_, ?_, ?_⟩
    · rw [h1, List.zip_map_left]
      exact List.mem_map.mpr ⟨(p, b), hb, rfl⟩
    · intro hcon
      rcases List.mem_map.mp hcon with ⟨q, hqf, heq⟩
      have hqe : q = p + headerSize := Option.some.inj heq
      rw [hqe] at hqf
      exact hnotfs hqf
    · rw [hfrees.2.2 p hnotfs, h7 (p, b) hb]
      rfl

/-- Witness for tracking_leak_accounting: two allocations, one free; the
report holds exactly one record, attributed to the second allocation
site. -/
theorem tracking_leak_accounting_witness :
    (memory_print_report (runFrees
        (runAllocs (memory_manager_init []) [(10, "f", 1), (20, "g", 2)]).2
        [48] "t.c" 1)).length = 1 :=
  (tracking_leak_accounting [(10, "f", 1), (20, "g", 2)] [48] "t.c" 1
    (by decide) (by decide) (by decide)).2.1
